import Mathlib

/-! cinode/go-common: the base-58 codec and the blob name packer

A shallow embedding of `base58/base58.go` and `blob/name.go`.

* Go's `byte` is `Fin 256`; a Go `string` and a Go `[]byte` are both `List Byte`
  (a Go string is an arbitrary byte sequence, not necessarily valid UTF-8).
* `for _, b := range s` over a string walks the UTF-8 decoding of `s`; it is modelled
  by `Go.runes`, which follows `utf8.DecodeRune`.
* `math/big` integers that the codec uses are never negative and are modelled by `Nat`.
* A Go function returning `(value, error)` returns a `Go.Result`; a run-time panic
  is a result of its own, so that an out-of-range index is visible.
-/

/-! ## Go language and standard library -/

namespace Go

/-- Go's `byte` (`uint8`). -/
abbrev Byte := Fin 256

/-- The bytes of a string literal all of whose characters are ASCII. -/
def asciiBytes (s : String) : List Byte := s.toList.map fun c => Fin.ofNat c.toNat

/-- The error values of the two packages. `ErrInvalidBase58Character r` stands for the
error built by `fmt.Errorf("%w: '%v'", ErrInvalidBase58Character, r)`: it wraps the sentinel
`ErrInvalidBase58Character` and carries the offending rune. -/
inductive Error where
  | ErrInvalidBase58Character (r : Nat)
  | ErrInvalidBlobName
  deriving DecidableEq, Repr

/-- The ways a call can abort instead of returning: an index outside an array
(`runtime error: index out of range`), a slice expression whose low bound exceeds its
high bound (`runtime error: slice bounds out of range`), or the use of a `big.Int`
whose value is undefined because `SetString` failed. -/
inductive Fault where
  | indexOutOfRange (index len : Nat)
  | sliceBoundsOutOfRange (low high : Nat)
  | undefinedBigInt
  deriving DecidableEq, Repr

/-- Outcome of a call of a Go function of type `(T, error)`: `ok v` is `(v, nil)`,
`error e` is `(nil, e)`, `panic f` is a run-time fault. -/
inductive Result (α : Type) where
  | ok (v : α)
  | error (e : Error)
  | panic (f : Fault)
  deriving DecidableEq, Repr

/-- Go's `errors.Is(err, base58.ErrInvalidBase58Character)`. -/
def Error.isInvalidBase58Character : Error → Bool
  | .ErrInvalidBase58Character _ => true
  | .ErrInvalidBlobName => false

/-- Go's `utf8.RuneError`, the replacement character U+FFFD. -/
def RuneError : Nat := 0xFFFD

/-- For a lead byte `p0 ≥ 0x80`: the length of the UTF-8 sequence it starts and the
accepted range of the second byte (the tables `first` and `acceptRanges` of
`unicode/utf8`); `none` for a byte that cannot start a sequence. -/
def leadInfo (p0 : Nat) : Option (Nat × Nat × Nat) :=
  if p0 < 0xC2 then none
  else if p0 ≤ 0xDF then some (2, 0x80, 0xBF)
  else if p0 = 0xE0 then some (3, 0xA0, 0xBF)
  else if p0 ≤ 0xEC then some (3, 0x80, 0xBF)
  else if p0 = 0xED then some (3, 0x80, 0x9F)
  else if p0 ≤ 0xEF then some (3, 0x80, 0xBF)
  else if p0 = 0xF0 then some (4, 0x90, 0xBF)
  else if p0 ≤ 0xF3 then some (4, 0x80, 0xBF)
  else if p0 = 0xF4 then some (4, 0x80, 0x8F)
  else none

/-- Go's `utf8.DecodeRune`: the first rune of `p` and the number of bytes it takes;
an invalid encoding gives `(RuneError, 1)`. -/
def decodeRune (p : List Byte) : Nat × Nat :=
  match p with
  | [] => (RuneError, 0)
  | p0 :: rest =>
    if p0.val < 0x80 then (p0.val, 1)
    else
      match leadInfo p0.val with
      | none => (RuneError, 1)
      | some (sz, lo, hi) =>
        if rest.length + 1 < sz then (RuneError, 1)
        else
          let b1 := (rest.getD 0 0).val
          if b1 < lo ∨ hi < b1 then (RuneError, 1)
          else if sz ≤ 2 then (((p0.val &&& 0x1F) <<< 6) ||| (b1 &&& 0x3F), 2)
          else
            let b2 := (rest.getD 1 0).val
            if b2 < 0x80 ∨ 0xBF < b2 then (RuneError, 1)
            else if sz ≤ 3 then
              (((p0.val &&& 0x0F) <<< 12) ||| ((b1 &&& 0x3F) <<< 6) ||| (b2 &&& 0x3F), 3)
            else
              let b3 := (rest.getD 2 0).val
              if b3 < 0x80 ∨ 0xBF < b3 then (RuneError, 1)
              else
                (((p0.val &&& 0x07) <<< 18) ||| ((b1 &&& 0x3F) <<< 12) |||
                  ((b2 &&& 0x3F) <<< 6) ||| (b3 &&& 0x3F), 4)

/-- The runes visited by `for _, r := range s`, with `fuel` iterations at most. -/
def runesAux : Nat → List Byte → List Nat
  | 0, _ => []
  | _ + 1, [] => []
  | fuel + 1, p0 :: rest =>
    (decodeRune (p0 :: rest)).1 :: runesAux fuel (rest.drop ((decodeRune (p0 :: rest)).2 - 1))

/-- The runes visited by `for _, r := range s`. Every iteration consumes at least one
byte, so `s.length` iterations are enough (`runesAux_fuel`). -/
def runes (s : List Byte) : List Nat := runesAux s.length s

/-- The digit characters of `math/big`:
`"0123456789abcdefghijklmnopqrstuvwxyzABCDEFGHIJKLMNOPQRSTUVWXYZ"`. -/
def bigDigits : List Byte :=
  asciiBytes "0123456789abcdefghijklmnopqrstuvwxyzABCDEFGHIJKLMNOPQRSTUVWXYZ"

/-- Go's `(*big.Int).SetBytes`: the value of `buf` read as a big-endian unsigned integer. -/
def bigSetBytes (buf : List Byte) : Nat := buf.foldl (fun acc b => acc * 256 + b.val) 0

/-- Digits of `n` in base `base`, least significant first, by repeated division, with
`fuel` divisions at most. -/
def toBase (base : Nat) : Nat → Nat → List Nat
  | 0, _ => []
  | fuel + 1, n => if n = 0 then [] else (n % base) :: toBase base fuel (n / base)

/-- Go's `(*big.Int).Text(base)` for a non-negative value and `2 ≤ base ≤ 62`:
the digits most significant first, `"0"` for zero. -/
def bigText (x base : Nat) : List Byte :=
  if x = 0 then asciiBytes "0"
  else (toBase base x x).reverse.map fun d => bigDigits.getD d 0

/-- Value of a digit character in a base above 36, where lower-case letters are 10..35
and upper-case letters are 36..61; `none` for any other byte. -/
def digitVal (c : Byte) : Option Nat :=
  if 48 ≤ c.val ∧ c.val ≤ 57 then some (c.val - 48)
  else if 97 ≤ c.val ∧ c.val ≤ 122 then some (c.val - 97 + 10)
  else if 65 ≤ c.val ∧ c.val ≤ 90 then some (c.val - 65 + 36)
  else none

/-- Digits of `s` folded most significant first onto `acc`; `none` at a byte that is
not a digit of the base. -/
def scanDigits (base : Nat) : List Byte → Nat → Option Nat
  | [], acc => some acc
  | c :: cs, acc =>
    match digitVal c with
    | some d => if d < base then scanDigits base cs (acc * base + d) else none
    | none => none

/-- Go's `(*big.Int).SetString(s, base)` for `36 < base ≤ 62` on a string without sign:
the value, or `none` when the call fails (empty string or a byte that is not a digit). -/
def bigSetString (s : List Byte) (base : Nat) : Option Nat :=
  if s = [] then none else scanDigits base s 0

/-- Go's `(*big.Int).Bytes`: the big-endian bytes of the value, without leading zero
byte (empty for zero). -/
def bigBytes (x : Nat) : List Byte := (toBase 256 x x).reverse.map fun d => Fin.ofNat d

/-- Go's `subtle.ConstantTimeCompare`: 1 when the slices have equal length and equal
contents, 0 otherwise; the loop ORs together the XOR of every pair of bytes. -/
def ConstantTimeCompare (x y : List Byte) : Nat :=
  if x.length ≠ y.length then 0
  else if (List.zipWith (fun a b => a ^^^ b) x y).foldl (fun v d => v ||| d) (0 : Byte) = 0
    then 1 else 0

end Go

/-! ## Package base58 -/

namespace base58

open Go

/-- The constant `btcAlphabet` of the table initialiser. -/
def btcAlphabet : List Byte :=
  asciiBytes "123456789ABCDEFGHJKLMNPQRSTUVWXYZabcdefghijkmnopqrstuvwxyz"

/-- The constant `bitNumDigits` of the table initialiser. -/
def bitNumDigits : List Byte :=
  asciiBytes "0123456789abcdefghijklmnopqrstuvwxyzABCDEFGHIJKLMNOPQRSTUV"

/-- The initialiser of `bn2btc, btc2bn`: two zeroed `[256]byte` arrays, filled by
`bn2btc[bitNumDigits[i]] = btcAlphabet[i]; btc2bn[btcAlphabet[i]] = bitNumDigits[i]`
for every index `i` of `btcAlphabet`. -/
def tables : List Byte × List Byte :=
  (List.range btcAlphabet.length).foldl
    (fun tb i =>
      (tb.1.set (bitNumDigits.getD i 0).val (btcAlphabet.getD i 0),
       tb.2.set (btcAlphabet.getD i 0).val (bitNumDigits.getD i 0)))
    (List.replicate 256 0, List.replicate 256 0)

/-- The table `bn2btc`: from a `math/big` digit character to the alphabet symbol. -/
@[irreducible] def bn2btc : List Byte := tables.1

/-- The table `btc2bn`: from an alphabet symbol to the `math/big` digit character,
zero elsewhere. -/
@[irreducible] def btc2bn : List Byte := tables.2

/-- The alphabet symbol of the digit value `d`: the `d`-th character of `btcAlphabet`. -/
def symbolOf (d : Nat) : Byte := btcAlphabet.getD d 0

/-- The digit value of an alphabet symbol: its position in `btcAlphabet` (58 for a byte
that is not a symbol). -/
def digitOf (c : Byte) : Nat := btcAlphabet.indexOf c

/-- The number of `'1'` characters at the start of a string. -/
def leadingOnes : List Byte → Nat
  | [] => 0
  | c :: rest => if c = 49 then leadingOnes rest + 1 else 0

/-- The integer whose base-58 numeral, most significant digit first, is the string of
alphabet symbols `d`. -/
def numeralValue (d : List Byte) : Nat := d.foldl (fun acc c => acc * 58 + digitOf c) 0

/-- The number of zero bytes at the start of a byte sequence, in the words of the spec. -/
def leadingZeroBytes (b : List Byte) : Nat := (b.takeWhile fun x => x == 0).length

/-- The number of `'1'` characters at the start of a string, in the words of the spec. -/
def leadingOneChars (s : List Byte) : Nat := (s.takeWhile fun c => c == 49).length

/-- The value of a byte sequence read as an unsigned big-endian integer. -/
def bigEndianValue (r : List Byte) : Nat := Nat.ofDigits 256 (r.reverse.map fun x => x.val)

/-- The base-58 digits of a number, most significant first; no digit at all for zero. -/
def base58Digits (v : Nat) : List Nat := (Nat.digits 58 v).reverse

/-- The integer whose base-58 numeral, most significant digit first, is the string of
alphabet symbols `d`, as a positional sum. -/
def base58Value (d : List Byte) : Nat := Nat.ofDigits 58 (d.reverse.map digitOf)

/-- The canonical big-endian bytes of a number: no leading zero byte, no byte at all
for zero. -/
def canonicalBytes (v : Nat) : List Byte := (Nat.digits 256 v).reverse.map fun d => Fin.ofNat d

/-- The encoding in the words of the spec: one `'1'` for each leading zero byte, then the
base-58 digits of the big-endian value of the remaining bytes, each digit value `v`
written as the `v`-th character of the alphabet. -/
def specEncode (b : List Byte) : List Byte :=
  List.replicate (leadingZeroBytes b) 49 ++
    (base58Digits (bigEndianValue (b.drop (leadingZeroBytes b)))).map fun v =>
      (asciiBytes "123456789ABCDEFGHJKLMNPQRSTUVWXYZabcdefghijkmnopqrstuvwxyz").getD v 0

/-- The first loop of `Encode`: the number of zero bytes at the start of `data`. -/
def countLeadingZeros : List Byte → Nat
  | [] => 0
  | b :: rest => if b = 0 then countLeadingZeros rest + 1 else 0

/-- The function `Encode`. The text of a `big.Int` is made of ASCII digits, so ranging
over it visits its bytes one by one, and each indexes `bn2btc` within its 256 entries. -/
def Encode (data : List Byte) : List Byte :=
  let leadingZeros := countLeadingZeros data
  let bi := bigSetBytes (data.drop leadingZeros)
  let txt := bigText bi 58
  let txt := if txt = asciiBytes "0" then [] else txt
  List.replicate leadingZeros (49 : Byte) ++ txt.map fun b => bn2btc.getD b.val 0

/-- The loop of `Decode` over the runes of the string, from the state
`(leadingZeros, leadingZerosDone, bnText)`: the final `(leadingZeros, bnText)`, the
error of the `default` case, or the panic of an index outside `btc2bn`. -/
def decodeLoop : List Nat → Nat → Bool → List Byte → Result (Nat × List Byte)
  | [], leadingZeros, _, bnText => .ok (leadingZeros, bnText)
  | b :: rest, leadingZeros, leadingZerosDone, bnText =>
    if !leadingZerosDone && b == 49 then
      decodeLoop rest (leadingZeros + 1) leadingZerosDone bnText
    else
      match btc2bn[b]? with
      | none => .panic (.indexOutOfRange b 256)
      | some v =>
        if v ≠ 0 then decodeLoop rest leadingZeros true (bnText ++ [v])
        else .error (.ErrInvalidBase58Character b)

/-- The function `Decode`. -/
def Decode (s : List Byte) : Result (List Byte) :=
  match decodeLoop (runes s) 0 false [] with
  | .panic f => .panic f
  | .error e => .error e
  | .ok (leadingZeros, bnText) =>
    if bnText.length = 0 then .ok (List.replicate leadingZeros 0)
    else
      match bigSetString bnText 58 with
      | none => .panic .undefinedBigInt
      | some bn => .ok (List.replicate leadingZeros 0 ++ bigBytes bn)

end base58

/-! ## Package blob -/

namespace blob

open Go

/-- Modelled from the spec: the declaration of the struct `Type` is not among the
sources; the spec describes the type tag as a single byte (0..255) with no reserved
value, and `name.go` and its test use it as a struct with one `byte` field `t`. -/
structure BlobType where
  t : Byte
  deriving DecidableEq, Repr

/-- The struct `Name`: the byte sequence `bn`. -/
structure Name where
  bn : List Byte
  deriving DecidableEq, Repr

/-- The function `NameFromHashAndType`. -/
def NameFromHashAndType (hash : List Byte) (t : BlobType) : Result Name :=
  if hash.length = 0 ∨ hash.length > 0x7E then .error .ErrInvalidBlobName
  else
    let scrambledTypeByte := hash.foldl (fun acc b => acc ^^^ b) t.t
    .ok { bn := scrambledTypeByte :: hash }

/-- The function `NameFromBytes`. -/
def NameFromBytes (n : List Byte) : Result Name :=
  if n.length = 0 ∨ n.length > 0x7F then .error .ErrInvalidBlobName
  else .ok { bn := n }

/-- The function `NameFromString`. -/
def NameFromString (s : List Byte) : Result Name :=
  match base58.Decode s with
  | .error _ => .error .ErrInvalidBlobName
  | .panic f => .panic f
  | .ok decoded => NameFromBytes decoded

/-- The method `String`. -/
def Name.String (b : Name) : List Byte := base58.Encode b.bn

/-- The method `Hash`: the slice expression `b.bn[1:]`, which panics on an empty `bn`. -/
def Name.Hash (b : Name) : Result (List Byte) :=
  match b.bn with
  | [] => .panic (.sliceBoundsOutOfRange 1 0)
  | _ :: hash => .ok hash

/-- The method `Type`: the XOR of all bytes of `bn`. -/
def Name.Type (b : Name) : BlobType := { t := b.bn.foldl (fun ret by_ => ret ^^^ by_) 0 }

/-- The method `Bytes`. -/
def Name.Bytes (b : Name) : List Byte := b.bn

/-- The method `Equal`. -/
def Name.Equal (b b2 : Name) : Bool := ConstantTimeCompare b.bn b2.bn == 1

/-- The first byte of the name that `NameFromHashAndType` returns, if it returns one. -/
def tagByte (hash : List Byte) (t : BlobType) : Option Byte :=
  match NameFromHashAndType hash t with
  | .ok n => n.bn.head?
  | _ => none

end blob

/-! ## Package blob over a heap: slices that share their backing arrays -/

namespace Go

/-- The backing arrays allocated so far; an array is named by its position. -/
abbrev Heap := List (List Byte)

/-- A slice value `[]byte`: a backing array, the offset of the first element in it, and
a length. Copying the value does not copy the array. -/
structure Slice where
  arr : Nat
  off : Nat
  len : Nat
  deriving DecidableEq, Repr

/-- The elements of a slice. -/
def Heap.read (m : Heap) (s : Slice) : List Byte := ((m.getD s.arr []).drop s.off).take s.len

/-- A fresh backing array holding `data` and the slice over it: `make` followed by `copy`,
or `bytes.Clone`. -/
def Heap.alloc (m : Heap) (data : List Byte) : Heap × Slice :=
  (m ++ [data], { arr := m.length, off := 0, len := data.length })

/-- The assignment `s[i] = v`: `none` stands for the panic of an index outside the slice. -/
def Heap.write (m : Heap) (s : Slice) (i : Nat) (v : Byte) : Option Heap :=
  if i < s.len then some (m.set s.arr ((m.getD s.arr []).set (s.off + i) v)) else none

/-- The slice expression `s[low:]`: the same backing array from a later offset; `none`
stands for the panic of `low > len(s)`. -/
def Slice.sliceFrom (s : Slice) (low : Nat) : Option Slice :=
  if low ≤ s.len then some { arr := s.arr, off := s.off + low, len := s.len - low } else none

end Go

namespace blob

open Go

/-- The struct `Name` in memory: the slice `bn`. -/
structure NameRef where
  bn : Slice
  deriving DecidableEq, Repr

/-- The function `NameFromHashAndType` in memory: `bn` is made afresh and the hash is
copied into it. -/
def NameFromHashAndTypeM (m : Heap) (hash : Slice) (t : BlobType) : Heap × Result NameRef :=
  if hash.len = 0 ∨ hash.len > 0x7E then (m, .error .ErrInvalidBlobName)
  else
    let scrambledTypeByte := (m.read hash).foldl (fun acc b => acc ^^^ b) t.t
    ((m.alloc (scrambledTypeByte :: m.read hash)).1,
      .ok { bn := (m.alloc (scrambledTypeByte :: m.read hash)).2 })

/-- The function `NameFromBytes` in memory: `bn` is `bytes.Clone(n)`. -/
def NameFromBytesM (m : Heap) (n : Slice) : Heap × Result NameRef :=
  if n.len = 0 ∨ n.len > 0x7F then (m, .error .ErrInvalidBlobName)
  else ((m.alloc (m.read n)).1, .ok { bn := (m.alloc (m.read n)).2 })

/-- The method `Bytes` in memory: `bytes.Clone(b.bn)`. -/
def NameRef.Bytes (m : Heap) (b : NameRef) : Heap × Slice := m.alloc (m.read b.bn)

/-- The method `Hash` in memory: the slice expression `b.bn[1:]`, over the backing array
of `bn` itself. -/
def NameRef.Hash (b : NameRef) : Result Slice :=
  match b.bn.sliceFrom 1 with
  | some s => .ok s
  | none => .panic (.sliceBoundsOutOfRange 1 b.bn.len)

/-- The method `Type` in memory. -/
def NameRef.Type (m : Heap) (b : NameRef) : BlobType :=
  { t := (m.read b.bn).foldl (fun ret by_ => ret ^^^ by_) 0 }

/-- The method `String` in memory. -/
def NameRef.String (m : Heap) (b : NameRef) : List Byte := base58.Encode (m.read b.bn)

end blob

/-! ## Package cutl -/

namespace cutl

/-- Outcome of a call that may panic: the value returned, or the value given to `panic`. -/
inductive Outcome (P α : Type) where
  | returns (v : α)
  | panics (value : P)
  deriving DecidableEq, Repr

/-- What `recover()` gives back after a panic: the value handed to `panic`, or the
`*runtime.PanicNilError` that the runtime (Go 1.21 and later) puts in the place of a nil
interface value. -/
inductive PanicValue (X : Type) where
  | value (x : X)
  | PanicNilError
  deriving DecidableEq, Repr

/-- Go's `panic(v)`. The argument is the interface value that `v` is converted to: `none`
is the nil interface value (a nil `error`, say), `some x` is any other value. -/
def goPanic {X α : Type} (v : Option X) : Outcome (PanicValue X) α :=
  match v with
  | some x => .panics (.value x)
  | none => .panics .PanicNilError

/-- The call panicked and the value of the panic is the interface value `x`. -/
def Outcome.panicsWith {X α : Type} (o : Outcome (PanicValue X) α) (x : Option X) : Prop :=
  match o, x with
  | .panics (.value a), some b => a = b
  | _, _ => False

/-- The function `PanicIf`. -/
def PanicIf {X : Type} (condition : Bool) (value : Option X) : Outcome (PanicValue X) Unit :=
  if condition then goPanic value else .returns ()

/-- The function `PanicIfError`; an `error` is `none` when it is `nil`. -/
def PanicIfError {E : Type} (err : Option E) : Outcome (PanicValue E) Unit :=
  PanicIf err.isSome err

/-- The function `Must`. -/
def Must {T E : Type} (val : T) (err : Option E) : Outcome (PanicValue E) T :=
  match PanicIfError err with
  | .panics value => .panics value
  | .returns _ => .returns val

/-- The function `Must2`. -/
def Must2 {T1 T2 E : Type} (val1 : T1) (val2 : T2) (err : Option E) :
    Outcome (PanicValue E) (T1 × T2) :=
  match PanicIfError err with
  | .panics value => .panics value
  | .returns _ => .returns (val1, val2)

end cutl

/-! ## Bytes: exclusive or -/

namespace Go

/-- XOR of bytes is XOR of their values. -/
theorem Byte.xor_val (a b : Byte) : (a ^^^ b).val = a.val ^^^ b.val := by
  have h : a.val ^^^ b.val < 2 ^ 8 := Nat.xor_lt_two_pow a.isLt b.isLt
  show (a.val ^^^ b.val) % 256 = a.val ^^^ b.val
  exact Nat.mod_eq_of_lt h

theorem Byte.xor_self (a : Byte) : a ^^^ a = 0 := by
  apply Fin.ext; rw [Byte.xor_val]; simp

theorem Byte.xor_zero (a : Byte) : a ^^^ 0 = a := by
  apply Fin.ext; rw [Byte.xor_val]; simp

theorem Byte.zero_xor (a : Byte) : 0 ^^^ a = a := by
  apply Fin.ext; rw [Byte.xor_val]; simp

theorem Byte.xor_comm (a b : Byte) : a ^^^ b = b ^^^ a := by
  apply Fin.ext; rw [Byte.xor_val, Byte.xor_val, Nat.xor_comm]

theorem Byte.xor_assoc (a b c : Byte) : (a ^^^ b) ^^^ c = a ^^^ (b ^^^ c) := by
  apply Fin.ext; simp only [Byte.xor_val, Nat.xor_assoc]

/-- The XOR fold from `a` is `a` XOR the fold from zero. -/
theorem foldl_xor_init (l : List Byte) (a : Byte) :
    l.foldl (fun acc b => acc ^^^ b) a = a ^^^ l.foldl (fun acc b => acc ^^^ b) 0 := by
  induction l generalizing a with
  | nil => simp [Byte.xor_zero]
  | cons x xs ih =>
    simp only [List.foldl_cons]
    rw [ih (a ^^^ x), ih (0 ^^^ x), Byte.zero_xor, Byte.xor_assoc]

end Go

/-! ## Bytes: inclusive or and the constant-time comparison -/

namespace Go

/-- OR of bytes is OR of their values. -/
theorem Byte.or_val (a b : Byte) : (a ||| b).val = a.val ||| b.val := by
  have h : a.val ||| b.val < 2 ^ 8 := Nat.or_lt_two_pow a.isLt b.isLt
  show (a.val ||| b.val) % 256 = a.val ||| b.val
  exact Nat.mod_eq_of_lt h

theorem nat_or_eq_zero (a b : Nat) : a ||| b = 0 ↔ a = 0 ∧ b = 0 := by
  constructor
  · intro h
    have hb : ∀ i, (a.testBit i || b.testBit i) = false := by
      intro i
      rw [← Nat.testBit_or, h, Nat.zero_testBit]
    constructor
    · apply Nat.eq_of_testBit_eq
      intro i
      have := hb i
      simp only [Bool.or_eq_false_iff] at this
      simp [this.1]
    · apply Nat.eq_of_testBit_eq
      intro i
      have := hb i
      simp only [Bool.or_eq_false_iff] at this
      simp [this.2]
  · rintro ⟨rfl, rfl⟩
    simp

theorem Byte.or_eq_zero (a b : Byte) : a ||| b = 0 ↔ a = 0 ∧ b = 0 := by
  constructor
  · intro h
    have hv : a.val ||| b.val = 0 := by rw [← Byte.or_val, h]; rfl
    obtain ⟨ha, hb⟩ := (nat_or_eq_zero _ _).1 hv
    exact ⟨Fin.ext ha, Fin.ext hb⟩
  · rintro ⟨rfl, rfl⟩
    apply Fin.ext; rw [Byte.or_val]; simp

theorem Byte.xor_eq_zero (a b : Byte) : a ^^^ b = 0 ↔ a = b := by
  constructor
  · intro h
    have hv : a.val ^^^ b.val = 0 := by rw [← Byte.xor_val, h]; rfl
    exact Fin.ext (Nat.xor_eq_zero.1 hv)
  · rintro rfl
    exact Byte.xor_self a

/-- The OR fold is zero exactly when it starts at zero and meets only zeros. -/
theorem foldl_or_eq_zero (l : List Byte) (v : Byte) :
    l.foldl (fun v d => v ||| d) v = 0 ↔ v = 0 ∧ ∀ d ∈ l, d = 0 := by
  induction l generalizing v with
  | nil => simp
  | cons x xs ih =>
    simp only [List.foldl_cons, ih, Byte.or_eq_zero, List.mem_cons, forall_eq_or_imp]
    tauto

/-- The XORs of the pairs are all zero exactly when two lists of one length are equal. -/
theorem zipWith_xor_zero (x y : List Byte) (h : x.length = y.length) :
    (∀ d ∈ List.zipWith (fun a b => a ^^^ b) x y, d = 0) ↔ x = y := by
  induction x generalizing y with
  | nil =>
    cases y with
    | nil => simp
    | cons b bs => simp at h
  | cons a as ih =>
    cases y with
    | nil => simp at h
    | cons b bs =>
      simp only [List.length_cons, add_left_inj] at h
      simp only [List.zipWith_cons_cons, List.mem_cons, forall_eq_or_imp, ih bs h,
        Byte.xor_eq_zero, List.cons.injEq]

/-- The comparison returns 1 exactly on equal slices. -/
theorem ConstantTimeCompare_eq_one (x y : List Byte) : ConstantTimeCompare x y = 1 ↔ x = y := by
  unfold ConstantTimeCompare
  by_cases hl : x.length = y.length
  · simp only [hl, ne_eq, not_true_eq_false, if_false, foldl_or_eq_zero, true_and,
      zipWith_xor_zero x y hl]
    split <;> simp_all
  · have hne : x ≠ y := fun h => hl (by rw [h])
    simp [hl, hne]

end Go

/-! ## Blob names: construction and accessors -/

namespace blob

open Go

/-- What `NameFromHashAndType` returns on a hash of accepted length. -/
theorem NameFromHashAndType_ok (h : List Byte) (t : BlobType)
    (h1 : 1 ≤ h.length) (h2 : h.length ≤ 126) :
    NameFromHashAndType h t = .ok { bn := h.foldl (fun acc b => acc ^^^ b) t.t :: h } := by
  unfold NameFromHashAndType
  rw [if_neg (by omega)]

/-- A name is equal to itself. -/
theorem Name.Equal_self (n : Name) : n.Equal n = true := by
  simp [Name.Equal, (ConstantTimeCompare_eq_one n.bn n.bn).2 rfl]

/-- C3: for every hash of 1 to 126 bytes and every type byte, `NameFromHashAndType`
succeeds and `Type()` of the name it returns is the type given: the XOR of all bytes
of the name recovers the type. -/
theorem type_recovered (h : List Byte) (t : BlobType)
    (h1 : 1 ≤ h.length) (h2 : h.length ≤ 126) :
    ∃ n, NameFromHashAndType h t = .ok n ∧ n.Type = t ∧
      n.bn.foldl (fun ret b => ret ^^^ b) 0 = t.t := by
  refine ⟨_, NameFromHashAndType_ok h t h1 h2, ?_, ?_⟩
  · cases t with
    | mk t =>
      simp only [Name.Type, List.foldl_cons, BlobType.mk.injEq, Byte.zero_xor]
      rw [foldl_xor_init h t, foldl_xor_init h (t ^^^ _), Byte.xor_assoc, Byte.xor_self,
        Byte.xor_zero]
  · simp only [List.foldl_cons, Byte.zero_xor]
    rw [foldl_xor_init h t.t, foldl_xor_init h (t.t ^^^ _), Byte.xor_assoc, Byte.xor_self,
      Byte.xor_zero]

/-- Witness of C3: the hash `[1, 2, 3, 4, 5, 6]` of the test with the type `0xFE`. -/
theorem type_recovered_witness :
    ∃ n, NameFromHashAndType [1, 2, 3, 4, 5, 6] { t := 0xFE } = .ok n ∧
      n.Type = { t := 0xFE } ∧ n.bn.foldl (fun ret b => ret ^^^ b) 0 = 0xFE :=
  type_recovered [1, 2, 3, 4, 5, 6] { t := 0xFE } (by decide) (by decide)

/-- C7: `NameFromHashAndType` returns the error `ErrInvalidBlobName` exactly when the hash
is empty or longer than 126 bytes, and returns a name otherwise; so the empty hash fails
for every type, a hash of 126 bytes succeeds, a hash of 127 bytes fails, and whether the
call fails is the same for any two hashes of one length, whatever the types. -/
theorem NameFromHashAndType_fails_iff (h : List Byte) (t : BlobType) :
    (NameFromHashAndType h t = .error .ErrInvalidBlobName ↔ h.length = 0 ∨ 126 < h.length) ∧
    ((∃ n, NameFromHashAndType h t = .ok n) ↔ ¬ (h.length = 0 ∨ 126 < h.length)) ∧
    NameFromHashAndType [] t = .error .ErrInvalidBlobName ∧
    (h.length = 126 → ∃ n, NameFromHashAndType h t = .ok n) ∧
    (h.length = 127 → NameFromHashAndType h t = .error .ErrInvalidBlobName) ∧
    (∀ (h2 : List Byte) (t2 : BlobType), h2.length = h.length →
      (NameFromHashAndType h2 t2 = .error .ErrInvalidBlobName ↔
        NameFromHashAndType h t = .error .ErrInvalidBlobName)) := by
  have key : ∀ (h : List Byte) (t : BlobType),
      (NameFromHashAndType h t = .error .ErrInvalidBlobName ↔
        h.length = 0 ∨ 126 < h.length) := by
    intro h t
    unfold NameFromHashAndType
    by_cases hc : h.length = 0 ∨ h.length > 0x7E
    · rw [if_pos hc]; exact ⟨fun _ => hc, fun _ => rfl⟩
    · rw [if_neg hc]; exact ⟨fun e => (by cases e), fun e => absurd e hc⟩
  have key2 : ∀ (h : List Byte) (t : BlobType),
      ((∃ n, NameFromHashAndType h t = .ok n) ↔ ¬ (h.length = 0 ∨ 126 < h.length)) := by
    intro h t
    unfold NameFromHashAndType
    by_cases hc : h.length = 0 ∨ h.length > 0x7E
    · rw [if_pos hc]; exact ⟨fun ⟨_, e⟩ => (by cases e), fun e => absurd hc e⟩
    · rw [if_neg hc]; exact ⟨fun _ => hc, fun _ => ⟨_, rfl⟩⟩
  refine ⟨key h t, key2 h t, (key [] t).2 (Or.inl rfl), ?_, ?_, ?_⟩
  · intro hl; exact (key2 h t).2 (by omega)
  · intro hl; exact (key h t).2 (by omega)
  · intro h2 t2 hl; rw [key h2 t2, key h t, hl]

/-- C8: for every hash of 1 to 126 bytes and every type byte, the name returned by
`NameFromHashAndType` has `Hash()` equal to the hash and `Bytes()` one byte longer. -/
theorem hash_recovered (h : List Byte) (t : BlobType)
    (h1 : 1 ≤ h.length) (h2 : h.length ≤ 126) :
    ∃ n, NameFromHashAndType h t = .ok n ∧ n.Hash = .ok h ∧
      n.Bytes.length = h.length + 1 :=
  ⟨_, NameFromHashAndType_ok h t h1 h2, rfl, by simp [Name.Bytes]⟩

/-- Witness of C8: the hash `[0, 0, 0, 0]` of the test with the type `0x01`. -/
theorem hash_recovered_witness :
    ∃ n, NameFromHashAndType [0, 0, 0, 0] { t := 0x01 } = .ok n ∧ n.Hash = .ok [0, 0, 0, 0] ∧
      n.Bytes.length = [(0 : Byte), 0, 0, 0].length + 1 :=
  hash_recovered [0, 0, 0, 0] { t := 0x01 } (by decide) (by decide)

/-- C9: for every hash of 1 to 126 bytes and every type byte, `NameFromBytes` of the
`Bytes()` of the name built by `NameFromHashAndType` succeeds with a name of the same
bytes, and `Equal` of the two names is true. -/
theorem bytes_round_trip (h : List Byte) (t : BlobType)
    (h1 : 1 ≤ h.length) (h2 : h.length ≤ 126) :
    ∃ n n3, NameFromHashAndType h t = .ok n ∧ NameFromBytes n.Bytes = .ok n3 ∧
      n3.Bytes = n.Bytes ∧ n.Equal n3 = true := by
  refine ⟨_, _, NameFromHashAndType_ok h t h1 h2, ?_, rfl, Name.Equal_self _⟩
  unfold NameFromBytes
  rw [if_neg (by simp [Name.Bytes]; omega)]
  rfl

/-- Witness of C9: the one-byte hash `[0xFF]` of the test with the type `0x02`. -/
theorem bytes_round_trip_witness :
    ∃ n n3, NameFromHashAndType [0xFF] { t := 0x02 } = .ok n ∧
      NameFromBytes n.Bytes = .ok n3 ∧ n3.Bytes = n.Bytes ∧ n.Equal n3 = true :=
  bytes_round_trip [0xFF] { t := 0x02 } (by decide) (by decide)

end blob

/-! ## Big integers: digits and bytes -/

namespace Go

/-- With enough fuel, repeated division yields the digits of the number. -/
theorem toBase_eq_digits (b : Nat) (hb : 2 ≤ b) :
    ∀ (fuel n : Nat), n ≤ fuel → toBase b fuel n = Nat.digits b n := by
  intro fuel
  induction fuel with
  | zero =>
    intro n hn
    have : n = 0 := by omega
    subst this
    simp [toBase]
  | succ fuel ih =>
    intro n hn
    unfold toBase
    by_cases h0 : n = 0
    · subst h0; simp
    · rw [if_neg h0, Nat.digits_def' (by omega) (by omega)]
      have hlt : n / b < n := Nat.div_lt_self (by omega) (by omega)
      rw [ih (n / b) (by omega)]

/-- The fold of `SetBytes` from an accumulator. -/
theorem foldl_bytes_eq (buf : List Byte) (acc : Nat) :
    buf.foldl (fun acc b => acc * 256 + b.val) acc =
      acc * 256 ^ buf.length + Nat.ofDigits 256 (buf.reverse.map fun b => b.val) := by
  induction buf generalizing acc with
  | nil => simp
  | cons x xs ih =>
    simp only [List.foldl_cons, List.length_cons, List.reverse_cons, List.map_append,
      List.map_cons, List.map_nil, Nat.ofDigits_append, Nat.ofDigits_singleton,
      List.length_map, List.length_reverse]
    rw [ih]
    ring

/-- `SetBytes` reads the slice as a numeral in base 256. -/
theorem bigSetBytes_eq (buf : List Byte) :
    bigSetBytes buf = Nat.ofDigits 256 (buf.reverse.map fun b => b.val) := by
  unfold bigSetBytes
  rw [foldl_bytes_eq]; simp

/-- `Bytes` writes the digits in base 256, most significant first. -/
theorem bigBytes_eq (x : Nat) :
    bigBytes x = (Nat.digits 256 x).reverse.map fun d => Fin.ofNat d := by
  unfold bigBytes
  rw [toBase_eq_digits 256 (by omega) x x le_rfl]

/-- `Bytes` undoes `SetBytes` on a slice that does not start with a zero byte. -/
theorem bigBytes_bigSetBytes (buf : List Byte) (h : ∀ b rest, buf = b :: rest → b ≠ 0) :
    bigBytes (bigSetBytes buf) = buf := by
  rw [bigBytes_eq, bigSetBytes_eq, Nat.digits_ofDigits 256 (by omega)]
  · rw [← List.map_reverse, List.reverse_reverse, List.map_map]
    conv_rhs => rw [← List.map_id buf]
    apply List.map_congr_left
    intro a _
    apply Fin.ext
    simp [Fin.ofNat, Nat.mod_eq_of_lt a.isLt]
  · intro l hl
    simp only [List.mem_map, List.mem_reverse] at hl
    obtain ⟨a, _, rfl⟩ := hl
    exact a.isLt
  · intro hne
    cases buf with
    | nil => simp at hne
    | cons b rest =>
      have hb := h b rest rfl
      simp only [List.reverse_cons, List.map_append, List.map_cons, List.map_nil,
        List.getLast_append_singleton] 
      intro hv
      exact hb (Fin.ext hv)

end Go

/-! ## Ranging over a string -/

namespace Go

/-- The fold of `SetString` over digit values, from an accumulator. -/
theorem foldl_digits_eq (base : Nat) (ds : List Nat) (acc : Nat) :
    ds.foldl (fun a d => a * base + d) acc =
      acc * base ^ ds.length + Nat.ofDigits base ds.reverse := by
  induction ds generalizing acc with
  | nil => simp
  | cons x xs ih =>
    simp only [List.foldl_cons, List.length_cons, List.reverse_cons, Nat.ofDigits_append,
      Nat.ofDigits_singleton, List.length_reverse]
    rw [ih]
    ring

/-- The fuel of `runesAux` does not matter once it covers the length of the string. -/
theorem runesAux_fuel_indep :
    ∀ (n fuel1 fuel2 : Nat) (s : List Byte), s.length ≤ n → n ≤ fuel1 → n ≤ fuel2 →
      runesAux fuel1 s = runesAux fuel2 s := by
  intro n
  induction n with
  | zero =>
    intro fuel1 fuel2 s hs _ _
    have : s = [] := List.length_eq_zero.1 (by omega)
    subst this
    cases fuel1 <;> cases fuel2 <;> rfl
  | succ n ih =>
    intro fuel1 fuel2 s hs h1 h2
    cases s with
    | nil => cases fuel1 <;> cases fuel2 <;> rfl
    | cons p0 rest =>
      obtain ⟨f1, rfl⟩ : ∃ f1, fuel1 = f1 + 1 := ⟨fuel1 - 1, by omega⟩
      obtain ⟨f2, rfl⟩ : ∃ f2, fuel2 = f2 + 1 := ⟨fuel2 - 1, by omega⟩
      simp only [runesAux]
      congr 1
      apply ih
      · simp only [List.length_drop, List.length_cons] at hs ⊢; omega
      · omega
      · omega

/-- Running the loop over a string with more iterations allowed than its length visits
the same runes: the loop never stops for lack of fuel. -/
theorem runesAux_fuel (fuel : Nat) (s : List Byte) (h : s.length ≤ fuel) :
    runesAux fuel s = runes s :=
  runesAux_fuel_indep s.length fuel s.length s le_rfl h le_rfl

/-- Ranging over a string of ASCII bytes visits the bytes. -/
theorem runes_ascii (s : List Byte) (h : ∀ c ∈ s, c.val < 128) :
    runes s = s.map fun c => c.val := by
  unfold runes
  induction s with
  | nil => rfl
  | cons p0 rest ih =>
    have hp : p0.val < 0x80 := h p0 (List.mem_cons_self _ _)
    have hd : decodeRune (p0 :: rest) = (p0.val, 1) := by
      simp only [decodeRune, if_pos hp]
    simp only [List.length_cons, runesAux, hd, List.map_cons, Nat.sub_self, List.drop_zero]
    rw [ih (fun c hc => h c (List.mem_cons_of_mem _ hc))]

end Go

/-! ## The two tables -/

namespace base58

open Go

/-- The position of the `d`-th symbol is `d`. -/
theorem digitOf_symbolOf : ∀ d : Fin 58, digitOf (symbolOf d.val) = d.val := by decide!

/-- A symbol is the character at its own position, which is below 58. -/
theorem symbolOf_digitOf :
    ∀ c : Byte, c ∈ btcAlphabet → symbolOf (digitOf c) = c ∧ digitOf c < 58 := by
  decide!

/-- The table `btc2bn` holds the digit character of every symbol and zero elsewhere. -/
theorem btc2bn_lookup : ∀ c : Byte,
    btc2bn[c.val]? = some (if c ∈ btcAlphabet then bigDigits.getD (digitOf c) 0 else 0) := by
  decide!

/-- The digit characters below 58: their values, their images in `bn2btc`, and the
symbols they stand for. -/
theorem bigDigits_facts : ∀ d : Fin 58,
    digitVal (bigDigits.getD d.val 0) = some d.val ∧ bigDigits.getD d.val 0 ≠ 0 ∧
    bn2btc.getD (bigDigits.getD d.val 0).val 0 = symbolOf d.val ∧
    symbolOf d.val ∈ btcAlphabet ∧ (symbolOf d.val).val < 128 ∧
    (symbolOf d.val = 49 ↔ d.val = 0) := by
  decide!

end base58

/-! ## The loop of Decode -/

namespace base58

open Go

/-- The digit character that `btc2bn` holds for a symbol is not the zero byte. -/
theorem bigDigit_ne_zero (c : Byte) (h : c ∈ btcAlphabet) :
    bigDigits.getD (digitOf c) 0 ≠ 0 :=
  (bigDigits_facts ⟨digitOf c, (symbolOf_digitOf c h).2⟩).2.1

/-- One iteration of the loop on a rune below 256. -/
theorem decodeLoop_cons (c : Byte) (rs : List Nat) (lz : Nat) (done : Bool) (bn : List Byte) :
    decodeLoop (c.val :: rs) lz done bn =
      if done = false ∧ c = 49 then decodeLoop rs (lz + 1) done bn
      else if c ∈ btcAlphabet then
        decodeLoop rs lz true (bn ++ [bigDigits.getD (digitOf c) 0])
      else .error (.ErrInvalidBase58Character c.val) := by
  have h49 : (c.val == 49) = decide (c = 49) := by
    by_cases h : c = 49
    · subst h; rfl
    · have : c.val ≠ 49 := fun hv => h (Fin.ext hv)
      simp [h, this]
  simp only [decodeLoop, btc2bn_lookup c, h49]
  have hiff : ((!done && decide (c = 49)) = true) ↔ (done = false ∧ c = 49) := by
    cases done <;> simp
  by_cases hcond : done = false ∧ c = 49
  · rw [if_pos hcond, if_pos (hiff.2 hcond)]
  · rw [if_neg hcond, if_neg (fun h => hcond (hiff.1 h))]
    by_cases hm : c ∈ btcAlphabet
    · simp only [hm, if_true]
      rw [if_pos (bigDigit_ne_zero c hm)]
    · simp [hm]

/-- A rune of 256 or more makes the loop panic, unless it is skipped by an earlier exit. -/
theorem decodeLoop_cons_big (r : Nat) (hr : 256 ≤ r) (rs : List Nat) (lz : Nat) (done : Bool)
    (bn : List Byte) :
    decodeLoop (r :: rs) lz done bn = .panic (.indexOutOfRange r 256) := by
  have hlen : btc2bn.length = 256 := by decide!
  have hnone : btc2bn[r]? = none := List.getElem?_eq_none (by omega)
  have h49 : (r == 49) = false := by
    simp only [beq_eq_false_iff_ne, ne_eq]; omega
  simp only [decodeLoop, hnone, h49]
  simp

/-- After the leading run, a string of symbols is collected digit by digit. -/
theorem decodeLoop_done (cs : List Byte) (h : ∀ c ∈ cs, c ∈ btcAlphabet) (lz : Nat)
    (bn : List Byte) :
    decodeLoop (cs.map fun c => c.val) lz true bn =
      .ok (lz, bn ++ cs.map fun c => bigDigits.getD (digitOf c) 0) := by
  induction cs generalizing bn with
  | nil => simp [decodeLoop]
  | cons c rest ih =>
    rw [List.map_cons, decodeLoop_cons]
    rw [if_neg (by simp), if_pos (h c (List.mem_cons_self _ _))]
    rw [ih (fun x hx => h x (List.mem_cons_of_mem _ hx))]
    simp

/-- On a string of symbols the loop counts the leading `'1'` characters and collects
the digit characters of the rest. -/
theorem decodeLoop_syms (cs : List Byte) (h : ∀ c ∈ cs, c ∈ btcAlphabet) (lz : Nat)
    (bn : List Byte) :
    decodeLoop (cs.map fun c => c.val) lz false bn =
      .ok (lz + leadingOnes cs,
        bn ++ (cs.drop (leadingOnes cs)).map fun c => bigDigits.getD (digitOf c) 0) := by
  induction cs generalizing lz with
  | nil => simp [decodeLoop, leadingOnes]
  | cons c rest ih =>
    rw [List.map_cons, decodeLoop_cons]
    by_cases hc : c = 49
    · rw [if_pos ⟨rfl, hc⟩, ih (fun x hx => h x (List.mem_cons_of_mem _ hx))]
      simp only [leadingOnes, if_pos hc, List.drop_succ_cons]
      congr 2
      omega
    · rw [if_neg (by simp [hc]), if_pos (h c (List.mem_cons_self _ _))]
      have hd := decodeLoop_done rest (fun x hx => h x (List.mem_cons_of_mem _ hx)) lz
        (bn ++ [bigDigits.getD (digitOf c) 0])
      rw [hd]
      simp [leadingOnes, hc]

/-- On a string of bytes one of which is not a symbol, the loop returns the error of
the first such byte. -/
theorem decodeLoop_bad (cs : List Byte) (h : ∃ c ∈ cs, c ∉ btcAlphabet) (lz : Nat)
    (done : Bool) (bn : List Byte) :
    ∃ c ∈ cs, c ∉ btcAlphabet ∧
      decodeLoop (cs.map fun c => c.val) lz done bn =
        .error (.ErrInvalidBase58Character c.val) := by
  induction cs generalizing lz done bn with
  | nil => simp at h
  | cons c rest ih =>
    rw [List.map_cons, decodeLoop_cons]
    by_cases hm : c ∈ btcAlphabet
    · have hrest : ∃ x ∈ rest, x ∉ btcAlphabet := by
        obtain ⟨x, hx, hxn⟩ := h
        rcases List.mem_cons.1 hx with rfl | hx
        · exact absurd hm hxn
        · exact ⟨x, hx, hxn⟩
      by_cases hcond : done = false ∧ c = 49
      · rw [if_pos hcond]
        obtain ⟨x, hx, hxn, he⟩ := ih hrest (lz + 1) done bn
        exact ⟨x, List.mem_cons_of_mem _ hx, hxn, he⟩
      · rw [if_neg hcond, if_pos hm]
        obtain ⟨x, hx, hxn, he⟩ := ih hrest lz true (bn ++ [bigDigits.getD (digitOf c) 0])
        exact ⟨x, List.mem_cons_of_mem _ hx, hxn, he⟩
    · have h49 : c ≠ 49 := by
        intro hc
        apply hm
        rw [hc]
        decide
      rw [if_neg (by simp [h49]), if_neg hm]
      exact ⟨c, List.mem_cons_self _ _, hm, rfl⟩

/-- The collected digit characters of a string of symbols parse to its value. -/
theorem scanDigits_syms (cs : List Byte) (h : ∀ c ∈ cs, c ∈ btcAlphabet) (acc : Nat) :
    scanDigits 58 (cs.map fun c => bigDigits.getD (digitOf c) 0) acc =
      some (cs.foldl (fun acc c => acc * 58 + digitOf c) acc) := by
  induction cs generalizing acc with
  | nil => rfl
  | cons c rest ih =>
    have hc := h c (List.mem_cons_self _ _)
    have hlt := (symbolOf_digitOf c hc).2
    have hv := (bigDigits_facts ⟨digitOf c, hlt⟩).1
    simp only [List.map_cons, scanDigits, hv, if_pos hlt, List.foldl_cons]
    exact ih (fun x hx => h x (List.mem_cons_of_mem _ hx)) _

end base58

/-! ## Decode and Encode in closed form -/

namespace base58

open Go

/-- The symbols are ASCII characters. -/
theorem symbol_ascii (c : Byte) (h : c ∈ btcAlphabet) : c.val < 128 := by
  have h1 := symbolOf_digitOf c h
  have h2 := (bigDigits_facts ⟨digitOf c, h1.2⟩).2.2.2.2.1
  simpa [h1.1] using h2

/-- Decode on a string of symbols: as many zero bytes as leading `'1'` characters, then
the bytes of the value of the rest. -/
theorem Decode_syms (s : List Byte) (h : ∀ c ∈ s, c ∈ btcAlphabet) :
    Decode s = .ok (List.replicate (leadingOnes s) 0 ++
      bigBytes (numeralValue (s.drop (leadingOnes s)))) := by
  unfold Decode
  rw [runes_ascii s (fun c hc => symbol_ascii c (h c hc)), decodeLoop_syms s h]
  simp only [Nat.zero_add, List.nil_append, List.length_map]
  have hdrop : ∀ c ∈ s.drop (leadingOnes s), c ∈ btcAlphabet :=
    fun c hc => h c (List.mem_of_mem_drop hc)
  cases hd : s.drop (leadingOnes s) with
  | nil =>
    simp [numeralValue, bigBytes, toBase]
  | cons c rest =>
    rw [hd] at hdrop
    have hne : ¬ ((c :: rest).length = 0) := by simp
    rw [if_neg hne]
    have hs : bigSetString ((c :: rest).map fun c => bigDigits.getD (digitOf c) 0) 58 =
        some (numeralValue (c :: rest)) := by
      unfold bigSetString
      rw [if_neg (by simp)]
      exact scanDigits_syms (c :: rest) hdrop 0
    rw [hs]

/-- Decode on a string of ASCII characters one of which is not a symbol: the error of
the first such character. -/
theorem Decode_bad (s : List Byte) (hascii : ∀ c ∈ s, c.val < 128)
    (h : ∃ c ∈ s, c ∉ btcAlphabet) :
    ∃ c ∈ s, c ∉ btcAlphabet ∧ Decode s = .error (.ErrInvalidBase58Character c.val) := by
  obtain ⟨c, hc, hcn, he⟩ := decodeLoop_bad s h 0 false []
  refine ⟨c, hc, hcn, ?_⟩
  unfold Decode
  rw [runes_ascii s hascii, he]

/-- The leading zero bytes of a slice, and what follows them. -/
theorem countLeadingZeros_spec (data : List Byte) :
    data = List.replicate (countLeadingZeros data) 0 ++ data.drop (countLeadingZeros data) ∧
    ∀ b rest, data.drop (countLeadingZeros data) = b :: rest → b ≠ 0 := by
  induction data with
  | nil => simp [countLeadingZeros]
  | cons x xs ih =>
    by_cases hx : x = 0
    · subst hx
      simp only [countLeadingZeros, if_true, List.replicate_succ, List.drop_succ_cons,
        List.cons_append, List.cons.injEq, true_and]
      exact ih
    · simp only [countLeadingZeros, if_neg hx, List.replicate_zero, List.drop_zero,
        List.nil_append, List.cons.injEq, true_and]
      rintro b rest ⟨rfl, _⟩
      exact hx

/-- Encode in closed form: a `'1'` for every leading zero byte, then the symbols of the
base-58 digits of the value of the rest, most significant first. -/
theorem Encode_eq (data : List Byte) :
    Encode data = List.replicate (countLeadingZeros data) 49 ++
      (Nat.digits 58 (bigSetBytes (data.drop (countLeadingZeros data)))).reverse.map
        symbolOf := by
  unfold Encode
  simp only
  congr 1
  generalize bigSetBytes (data.drop (countLeadingZeros data)) = v
  unfold bigText
  by_cases hv : v = 0
  · subst hv; simp
  · rw [if_neg hv, toBase_eq_digits 58 (by omega) v v le_rfl]
    have hmap : (List.map (fun d => bigDigits.getD d 0) (Nat.digits 58 v).reverse).map
        (fun b => bn2btc.getD b.val 0) = (Nat.digits 58 v).reverse.map symbolOf := by
      rw [List.map_map]
      apply List.map_congr_left
      intro d hd
      have hlt : d < 58 := Nat.digits_lt_base (by omega) (List.mem_reverse.1 hd)
      exact (bigDigits_facts ⟨d, hlt⟩).2.2.1
    have hne : List.map (fun d => bigDigits.getD d 0) (Nat.digits 58 v).reverse ≠
        asciiBytes "0" := by
      intro heq
      have hl : (Nat.digits 58 v).reverse.length = 1 := by
        have := congrArg List.length heq
        simpa [asciiBytes] using this
      obtain ⟨d, hd⟩ := List.length_eq_one.1 hl
      rw [hd] at heq
      have hdm : d ∈ Nat.digits 58 v := by
        rw [← List.mem_reverse, hd]; simp
      have hlt : d < 58 := Nat.digits_lt_base (by omega) hdm
      have hval := (bigDigits_facts ⟨d, hlt⟩).1
      have h48 : bigDigits.getD d 0 = 48 := by
        simpa [asciiBytes] using heq
      simp only [h48] at hval
      have hd0 : d = 0 := by
        have : digitVal 48 = some 0 := by decide
        rw [this] at hval
        exact (Option.some.inj hval).symm
      have hdig : Nat.digits 58 v = [0] := by
        rw [← List.reverse_reverse (Nat.digits 58 v), hd, hd0]; rfl
      have := Nat.ofDigits_digits 58 v
      rw [hdig] at this
      simp at this
      exact hv this.symm
    rw [if_neg hne, hmap]

end base58

/-! ## The round trip -/

namespace base58

open Go

/-- The leading `'1'` characters of a run of `'1'` followed by a string that does not
start with `'1'`. -/
theorem leadingOnes_replicate_append (z : Nat) (d : List Byte)
    (h : ∀ c rest, d = c :: rest → c ≠ 49) :
    leadingOnes (List.replicate z 49 ++ d) = z := by
  induction z with
  | zero =>
    cases d with
    | nil => rfl
    | cons c rest => simp [leadingOnes, h c rest rfl]
  | succ z ih => simp [List.replicate_succ, leadingOnes, ih]

/-- The value of the numeral written with the symbols of the digits `ds`. -/
theorem numeralValue_map_symbolOf (ds : List Nat) (h : ∀ d ∈ ds, d < 58) :
    numeralValue (ds.map symbolOf) = Nat.ofDigits 58 ds.reverse := by
  unfold numeralValue
  rw [List.foldl_map]
  have hf : ∀ (l : List Nat) (acc : Nat), (∀ d ∈ l, d < 58) →
      l.foldl (fun acc d => acc * 58 + digitOf (symbolOf d)) acc =
        l.foldl (fun acc d => acc * 58 + d) acc := by
    intro l
    induction l with
    | nil => intro _ _; rfl
    | cons x xs ih =>
      intro acc hl
      simp only [List.foldl_cons]
      rw [digitOf_symbolOf ⟨x, hl x (List.mem_cons_self _ _)⟩]
      exact ih _ (fun d hd => hl d (List.mem_cons_of_mem _ hd))
  rw [hf ds 0 h, foldl_digits_eq]
  simp

/-- The symbols of the digits of a number, most significant first: they are symbols,
the first is not `'1'`, and their value is the number. -/
theorem digit_symbols_spec (v : Nat) :
    (∀ c ∈ (Nat.digits 58 v).reverse.map symbolOf, c ∈ btcAlphabet) ∧
    (∀ c rest, (Nat.digits 58 v).reverse.map symbolOf = c :: rest → c ≠ 49) ∧
    numeralValue ((Nat.digits 58 v).reverse.map symbolOf) = v := by
  have hlt : ∀ d ∈ (Nat.digits 58 v).reverse, d < 58 :=
    fun d hd => Nat.digits_lt_base (by omega) (List.mem_reverse.1 hd)
  refine ⟨?_, ?_, ?_⟩
  · intro c hc
    obtain ⟨d, hd, rfl⟩ := List.mem_map.1 hc
    exact (bigDigits_facts ⟨d, hlt d hd⟩).2.2.2.1
  · intro c rest hcr
    cases hrev : (Nat.digits 58 v).reverse with
    | nil => rw [hrev] at hcr; simp at hcr
    | cons d ds =>
      rw [hrev] at hcr
      simp only [List.map_cons, List.cons.injEq] at hcr
      have hdne : Nat.digits 58 v ≠ [] := by
        intro h0; rw [h0] at hrev; simp at hrev
      have hlast : (Nat.digits 58 v).getLast hdne = d := by
        have h2 : Nat.digits 58 v = ds.reverse ++ [d] := by
          rw [← List.reverse_reverse (Nat.digits 58 v), hrev, List.reverse_cons]
        simp only [h2, List.getLast_append_singleton]
      have hd0 : d ≠ 0 := by
        rw [← hlast]
        exact Nat.getLast_digit_ne_zero 58 (fun hv0 => hdne (by rw [hv0]; simp))
      have hdlt : d < 58 := hlt d (by rw [hrev]; exact List.mem_cons_self _ _)
      rw [← hcr.1]
      intro h49
      exact hd0 (((bigDigits_facts ⟨d, hdlt⟩).2.2.2.2.2).1 h49)
  · rw [numeralValue_map_symbolOf _ hlt, List.reverse_reverse, Nat.ofDigits_digits]

/-- Decoding an encoded slice gives the slice back. -/
theorem Decode_Encode (b : List Byte) : Decode (Encode b) = .ok b := by
  obtain ⟨hsplit, hhead⟩ := countLeadingZeros_spec b
  obtain ⟨hsyms, hfirst, hval⟩ :=
    digit_symbols_spec (bigSetBytes (b.drop (countLeadingZeros b)))
  have hall : ∀ c ∈ Encode b, c ∈ btcAlphabet := by
    intro c hc
    rw [Encode_eq, List.mem_append] at hc
    rcases hc with hc | hc
    · rw [(List.mem_replicate.1 hc).2]; decide
    · exact hsyms c hc
  rw [Decode_syms (Encode b) hall, Encode_eq, leadingOnes_replicate_append _ _ hfirst]
  rw [List.drop_left' (by simp), hval, bigBytes_bigSetBytes _ hhead]
  exact congrArg Result.ok hsplit.symm

/-- C1: for every byte sequence `b` (empty, all zero, with leading zero bytes or not),
`Decode(Encode(b))` returns `b` and no error. -/
theorem decode_encode_round_trip (b : List Byte) : Decode (Encode b) = .ok b :=
  Decode_Encode b

end base58

/-! ## Decode: every outcome -/

namespace base58

open Go

/-- The bytes collected in `bnText` always parse: digit characters of values below 58
make `SetString` succeed. -/
theorem scanDigits_valid (l : List Byte)
    (h : ∀ c ∈ l, ∃ d : Fin 58, c = bigDigits.getD d.val 0) (acc : Nat) :
    ∃ v, scanDigits 58 l acc = some v := by
  induction l generalizing acc with
  | nil => exact ⟨acc, rfl⟩
  | cons c rest ih =>
    obtain ⟨d, rfl⟩ := h c (List.mem_cons_self _ _)
    simp only [scanDigits, (bigDigits_facts d).1, if_pos d.isLt]
    exact ih (fun x hx => h x (List.mem_cons_of_mem _ hx)) _

/-- The three ways the loop ends: with digit characters collected, with the error of
the `default` case, or with a rune of 256 or more used as an index. -/
theorem decodeLoop_outcomes (rs : List Nat) (lz : Nat) (done : Bool) (bn : List Byte)
    (hbn : ∀ c ∈ bn, ∃ d : Fin 58, c = bigDigits.getD d.val 0) :
    (∃ lz2 bn2, decodeLoop rs lz done bn = .ok (lz2, bn2) ∧
      ∀ c ∈ bn2, ∃ d : Fin 58, c = bigDigits.getD d.val 0) ∨
    (∃ r ∈ rs, decodeLoop rs lz done bn = .error (.ErrInvalidBase58Character r)) ∨
    (∃ r ∈ rs, 256 ≤ r ∧ decodeLoop rs lz done bn = .panic (.indexOutOfRange r 256)) := by
  induction rs generalizing lz done bn with
  | nil => exact Or.inl ⟨lz, bn, rfl, hbn⟩
  | cons r rest ih =>
    have lift : ∀ (lz2 : Nat) (done2 : Bool) (bn2 : List Byte),
        (∀ c ∈ bn2, ∃ d : Fin 58, c = bigDigits.getD d.val 0) →
        decodeLoop (r :: rest) lz done bn = decodeLoop rest lz2 done2 bn2 →
        (∃ lz2 bn2, decodeLoop (r :: rest) lz done bn = .ok (lz2, bn2) ∧
          ∀ c ∈ bn2, ∃ d : Fin 58, c = bigDigits.getD d.val 0) ∨
        (∃ x ∈ r :: rest,
          decodeLoop (r :: rest) lz done bn = .error (.ErrInvalidBase58Character x)) ∨
        (∃ x ∈ r :: rest, 256 ≤ x ∧
          decodeLoop (r :: rest) lz done bn = .panic (.indexOutOfRange x 256)) := by
      intro lz2 done2 bn2 hbn2 heq
      rw [heq]
      rcases ih lz2 done2 bn2 hbn2 with h | ⟨x, hx, h⟩ | ⟨x, hx, h⟩
      · exact Or.inl h
      · exact Or.inr (Or.inl ⟨x, List.mem_cons_of_mem _ hx, h⟩)
      · exact Or.inr (Or.inr ⟨x, List.mem_cons_of_mem _ hx, h⟩)
    by_cases hr : r < 256
    · have hstep := decodeLoop_cons ⟨r, hr⟩ rest lz done bn
      simp only at hstep
      by_cases hcond : done = false ∧ (⟨r, hr⟩ : Byte) = 49
      · rw [if_pos hcond] at hstep
        exact lift _ _ _ hbn hstep
      · rw [if_neg hcond] at hstep
        by_cases hm : (⟨r, hr⟩ : Byte) ∈ btcAlphabet
        · rw [if_pos hm] at hstep
          refine lift _ _ _ ?_ hstep
          intro c hc
          rcases List.mem_append.1 hc with hc | hc
          · exact hbn c hc
          · rw [List.mem_singleton.1 hc]
            exact ⟨⟨digitOf ⟨r, hr⟩, (symbolOf_digitOf _ hm).2⟩, rfl⟩
        · rw [if_neg hm] at hstep
          exact Or.inr (Or.inl ⟨r, List.mem_cons_self _ _, hstep⟩)
    · exact Or.inr (Or.inr ⟨r, List.mem_cons_self _ _, by omega,
        decodeLoop_cons_big r (by omega) rest lz done bn⟩)

/-- Every outcome of `Decode`: bytes, an error wrapping `ErrInvalidBase58Character`, or
the panic of a rune of 256 or more used as an index into `btc2bn`. The value of the
`big.Int` is never undefined. -/
theorem Decode_outcomes (s : List Byte) :
    (∃ b, Decode s = .ok b) ∨
    (∃ r ∈ runes s, Decode s = .error (.ErrInvalidBase58Character r)) ∨
    (∃ r ∈ runes s, 256 ≤ r ∧ Decode s = .panic (.indexOutOfRange r 256)) := by
  unfold Decode
  rcases decodeLoop_outcomes (runes s) 0 false [] (by simp) with
    ⟨lz2, bn2, h, hv⟩ | ⟨r, hr, h⟩ | ⟨r, hr, hge, h⟩
  · left
    rw [h]
    simp only
    by_cases hl : bn2.length = 0
    · rw [if_pos hl]; exact ⟨_, rfl⟩
    · rw [if_neg hl]
      have hne : bn2 ≠ [] := fun h0 => hl (by rw [h0]; rfl)
      obtain ⟨v, hv2⟩ := scanDigits_valid bn2 hv 0
      simp only [bigSetString, if_neg hne, hv2]
      exact ⟨_, rfl⟩
  · right; left
    exact ⟨r, hr, by rw [h]⟩
  · right; right
    exact ⟨r, hr, hge, by rw [h]⟩

end base58

/-! ## Decode: rejected strings and known vectors -/

namespace base58

open Go

/-- C2: `Decode` does not return on every string. On the two bytes `0xC4 0x80` (the UTF-8
encoding of U+0100) the rune 256 indexes the 256-entry table `btc2bn`, and on the byte
`0xFF` (not valid UTF-8) the rune U+FFFD does: both calls panic with an index out of
range, where a returned `ErrInvalidBase58Character` is expected. -/
theorem Decode_index_out_of_range :
    runes [0xC4, 0x80] = [256] ∧
    Decode [0xC4, 0x80] = .panic (.indexOutOfRange 256 256) ∧
    runes [0xFF] = [RuneError] ∧
    Decode [0xFF] = .panic (.indexOutOfRange 65533 256) := by
  decide!

/-- C5: on a string of ASCII characters, `Decode` returns an error wrapping
`ErrInvalidBase58Character` exactly when some character of the string, at whatever
position, is not one of the 58 symbols of the alphabet; the error then names such a
character, and a string made of symbols only is decoded without error. -/
theorem Decode_fails_iff (s : List Byte) (hascii : ∀ c ∈ s, c.val < 128) :
    ((∃ e, Decode s = .error e ∧ e.isInvalidBase58Character = true) ↔
      ∃ c ∈ s, c ∉ btcAlphabet) ∧
    (∀ (p q : List Byte) (c : Byte), s = p ++ c :: q → c ∉ btcAlphabet →
      ∃ x ∈ s, x ∉ btcAlphabet ∧ Decode s = .error (.ErrInvalidBase58Character x.val)) ∧
    ((∀ c ∈ s, c ∈ btcAlphabet) → ∃ b, Decode s = .ok b) ∧
    btcAlphabet.length = 58 := by
  refine ⟨⟨?_, ?_⟩, ?_, ?_, by decide!⟩
  · rintro ⟨e, he, _⟩
    by_contra hno
    have hall : ∀ c ∈ s, c ∈ btcAlphabet := by
      intro c hc
      by_contra hcn
      exact hno ⟨c, hc, hcn⟩
    rw [Decode_syms s hall] at he
    cases he
  · intro h
    obtain ⟨c, _, _, he⟩ := Decode_bad s hascii h
    exact ⟨_, he, rfl⟩
  · intro p q c hs hc
    exact Decode_bad s hascii ⟨c, by rw [hs]; simp, hc⟩
  · intro hall
    exact ⟨_, Decode_syms s hall⟩

/-- Witness of C5: the string `"3SEo3@LWLoPntC"` of the test, with `'@'` in the middle. -/
theorem Decode_fails_iff_witness :
    (∀ c ∈ asciiBytes "3SEo3@LWLoPntC", c.val < 128) ∧
    ((∃ e, Decode (asciiBytes "3SEo3@LWLoPntC") = .error e ∧
        e.isInvalidBase58Character = true) ↔
      ∃ c ∈ asciiBytes "3SEo3@LWLoPntC", c ∉ btcAlphabet) :=
  ⟨by decide!, (Decode_fails_iff (asciiBytes "3SEo3@LWLoPntC") (by decide!)).1⟩

/-- C6: the known vectors. `Encode` of the empty sequence is the empty string, of the 12
bytes of `"Hello World!"` is `"2NEpo7TZRRrLZSi2U"`, of `00 00 28 7f b4 cd` is `"11233QC4"`,
and `Decode` of each of the three strings returns the bytes encoded. -/
theorem known_vectors :
    Encode [] = [] ∧
    asciiBytes "Hello World!" = [72, 101, 108, 108, 111, 32, 87, 111, 114, 108, 100, 33] ∧
    Encode (asciiBytes "Hello World!") = asciiBytes "2NEpo7TZRRrLZSi2U" ∧
    Encode [0x00, 0x00, 0x28, 0x7f, 0xb4, 0xcd] = asciiBytes "11233QC4" ∧
    Decode [] = .ok [] ∧
    Decode (asciiBytes "2NEpo7TZRRrLZSi2U") = .ok (asciiBytes "Hello World!") ∧
    Decode (asciiBytes "11233QC4") = .ok [0x00, 0x00, 0x28, 0x7f, 0xb4, 0xcd] := by
  decide!

end base58

/-! ## Blob names and their strings -/

namespace blob

open Go base58

/-- C4: for every hash of 1 to 126 bytes and every type byte, `NameFromString` of the
`String()` of the name built by `NameFromHashAndType` succeeds with a name of the same
bytes, and `Equal` of the two names is true. -/
theorem string_round_trip (h : List Byte) (t : BlobType)
    (h1 : 1 ≤ h.length) (h2 : h.length ≤ 126) :
    ∃ n n2, NameFromHashAndType h t = .ok n ∧ NameFromString n.String = .ok n2 ∧
      n2.Bytes = n.Bytes ∧ n.Equal n2 = true := by
  refine ⟨_, _, NameFromHashAndType_ok h t h1 h2, ?_, rfl, Name.Equal_self _⟩
  unfold NameFromString Name.String
  rw [Decode_Encode]
  simp only
  unfold NameFromBytes
  rw [if_neg (by simp; omega)]

/-- Witness of C4: a hash of the maximum length, 126 bytes, which gives a name of
127 bytes. -/
theorem string_round_trip_witness :
    ∃ n n2, NameFromHashAndType (List.replicate 126 0xA5) { t := 0xFF } = .ok n ∧
      n.Bytes.length = 127 ∧
      NameFromString n.String = .ok n2 ∧ n2.Bytes = n.Bytes ∧ n.Equal n2 = true := by
  obtain ⟨n, n2, hn, hs, hb, he⟩ :=
    string_round_trip (List.replicate 126 0xA5) { t := 0xFF } (by simp) (by simp)
  refine ⟨n, n2, hn, ?_, hs, hb, he⟩
  rw [NameFromHashAndType_ok _ _ (by simp) (by simp)] at hn
  cases hn
  simp [Name.Bytes]

/-- C10: `NameFromString` returns the error `ErrInvalidBlobName` exactly when `Decode`
returns an error or returns a byte sequence that is empty or longer than 127 bytes; it
returns no other error, so an error of `Decode` always comes out as `ErrInvalidBlobName`;
a name it returns has the decoded bytes; it panics exactly when `Decode` does; the empty
string and `"!@#"` are rejected. -/
theorem NameFromString_spec (s : List Byte) :
    (NameFromString s = .error .ErrInvalidBlobName ↔
      (∃ e, Decode s = .error e) ∨
      (∃ d, Decode s = .ok d ∧ (d.length = 0 ∨ 127 < d.length))) ∧
    (∀ e, NameFromString s = .error e → e = .ErrInvalidBlobName) ∧
    (∀ e, Decode s = .error e → NameFromString s = .error .ErrInvalidBlobName) ∧
    (∀ n, NameFromString s = .ok n → Decode s = .ok n.Bytes) ∧
    (∀ f, NameFromString s = .panic f ↔ Decode s = .panic f) ∧
    NameFromString [] = .error .ErrInvalidBlobName ∧
    NameFromString (asciiBytes "!@#") = .error .ErrInvalidBlobName := by
  have hbytes : ∀ d : List Byte,
      (d.length = 0 ∨ 127 < d.length) → NameFromBytes d = .error .ErrInvalidBlobName := by
    intro d hd
    unfold NameFromBytes
    rw [if_pos hd]
  have hbytes2 : ∀ d : List Byte,
      ¬ (d.length = 0 ∨ 127 < d.length) → NameFromBytes d = .ok { bn := d } := by
    intro d hd
    unfold NameFromBytes
    rw [if_neg hd]
  refine ⟨?_, ?_, ?_, ?_, ?_, by decide!, by decide!⟩
  all_goals unfold NameFromString
  all_goals cases hd : Decode s with
    | error e => simp
    | panic f => simp
    | ok d =>
      by_cases hl : d.length = 0 ∨ 127 < d.length
      · have hl2 : d = [] ∨ 127 < d.length := by simpa using hl
        simp [hbytes d hl, hl2]
      · have hl2 : ¬ d = [] ∧ d.length ≤ 127 := by simpa using hl
        simp [hbytes2 d hl, hl2, Name.Bytes]

end blob

/-! ## Blob names: bytes, equality and the tag byte -/

namespace blob

open Go

/-- What `NameFromBytes` returns on a slice of accepted length. -/
theorem NameFromBytes_ok (b : List Byte) (h1 : 1 ≤ b.length) (h2 : b.length ≤ 127) :
    NameFromBytes b = .ok { bn := b } := by
  unfold NameFromBytes
  rw [if_neg (by omega)]

/-- What `NameFromBytes` returns on a slice of refused length. -/
theorem NameFromBytes_error (b : List Byte) (h : b.length = 0 ∨ 127 < b.length) :
    NameFromBytes b = .error .ErrInvalidBlobName := by
  unfold NameFromBytes
  rw [if_pos h]

/-- `Equal` is equality of the stored bytes. -/
theorem Name.Equal_iff (a b : Name) : a.Equal b = true ↔ a.bn = b.bn := by
  unfold Name.Equal
  rw [beq_iff_eq, ConstantTimeCompare_eq_one]

/-- C11: `NameFromBytes` returns the error `ErrInvalidBlobName` exactly when the slice is
empty or longer than 127 bytes, whatever its content: a slice of 127 bytes is accepted,
one of 128 bytes is refused; and the name it returns has `Bytes()` equal to the slice. -/
theorem NameFromBytes_fails_iff (b : List Byte) :
    (NameFromBytes b = .error .ErrInvalidBlobName ↔ b.length = 0 ∨ 127 < b.length) ∧
    ((∃ n, NameFromBytes b = .ok n) ↔ ¬ (b.length = 0 ∨ 127 < b.length)) ∧
    (∀ e, NameFromBytes b = .error e → e = .ErrInvalidBlobName) ∧
    (∀ f, NameFromBytes b ≠ .panic f) ∧
    (b.length = 127 → ∃ n, NameFromBytes b = .ok n) ∧
    (b.length = 128 → NameFromBytes b = .error .ErrInvalidBlobName) ∧
    (∀ n, NameFromBytes b = .ok n → n.Bytes = b) := by
  by_cases hc : b.length = 0 ∨ 127 < b.length
  · rw [NameFromBytes_error b hc]
    refine ⟨⟨fun _ => hc, fun _ => rfl⟩, ⟨fun ⟨_, e⟩ => (by cases e), fun e => absurd hc e⟩,
      ?_, ?_, ?_, ?_, ?_⟩
    · intro e he; cases he; rfl
    · intro f hf; cases hf
    · intro hl; omega
    · intro _; rfl
    · intro n hn; cases hn
  · rw [NameFromBytes_ok b (by omega) (by omega)]
    refine ⟨⟨fun e => (by cases e), fun e => absurd e hc⟩, ⟨fun _ => hc, fun _ => ⟨_, rfl⟩⟩,
      ?_, ?_, ?_, ?_, ?_⟩
    · intro e he; cases he
    · intro f hf; cases hf
    · intro _; exact ⟨_, rfl⟩
    · intro hl; omega
    · intro n hn; cases hn; rfl

/-- C12: `Equal` is true exactly when the two stored byte sequences have the same length
and the same byte at every position; so it is reflexive, symmetric and transitive, and
two names of different lengths are not equal. -/
theorem Equal_iff_same_bytes (a b : Name) :
    (a.Equal b = true ↔
      a.bn.length = b.bn.length ∧ ∀ i, i < a.bn.length → a.bn[i]? = b.bn[i]?) ∧
    a.Equal a = true ∧
    (a.Equal b = true → b.Equal a = true) ∧
    (∀ c : Name, a.Equal b = true → b.Equal c = true → a.Equal c = true) ∧
    (a.bn.length ≠ b.bn.length → a.Equal b = false) := by
  refine ⟨?_, Name.Equal_self a, ?_, ?_, ?_⟩
  · rw [Name.Equal_iff]
    constructor
    · intro h; rw [h]; exact ⟨rfl, fun _ _ => rfl⟩
    · rintro ⟨hl, hi⟩
      apply List.ext_getElem? 
      intro i
      by_cases hlt : i < a.bn.length
      · exact hi i hlt
      · rw [List.getElem?_eq_none (by omega), List.getElem?_eq_none (by omega)]
  · intro h
    rw [Name.Equal_iff] at h ⊢
    exact h.symm
  · intro c h1 h2
    rw [Name.Equal_iff] at h1 h2 ⊢
    exact h1.trans h2
  · intro hl
    cases he : a.Equal b with
    | false => rfl
    | true =>
      rw [Name.Equal_iff] at he
      exact absurd (by rw [he]) hl

/-- C16: for every hash of 1 to 126 bytes and every type byte, the bytes of the name
built by `NameFromHashAndType` are the tag byte, which is the type XOR the XOR of all
bytes of the hash, followed by the bytes of the hash unchanged. -/
theorem name_layout (h : List Byte) (t : BlobType)
    (h1 : 1 ≤ h.length) (h2 : h.length ≤ 126) :
    ∃ n, NameFromHashAndType h t = .ok n ∧
      n.Bytes = (t.t ^^^ h.foldl (fun acc b => acc ^^^ b) 0) :: h := by
  refine ⟨_, NameFromHashAndType_ok h t h1 h2, ?_⟩
  simp only [Name.Bytes]
  rw [foldl_xor_init h t.t]

/-- Witness of C16: the hash `[1, 2, 3, 4, 5, 6]` of the test with the type `0x02`. -/
theorem name_layout_witness :
    ∃ n, NameFromHashAndType [1, 2, 3, 4, 5, 6] { t := 0x02 } = .ok n ∧
      n.Bytes = ((0x02 : Byte) ^^^ [(1 : Byte), 2, 3, 4, 5, 6].foldl (fun acc b => acc ^^^ b) 0)
        :: [1, 2, 3, 4, 5, 6] :=
  name_layout [1, 2, 3, 4, 5, 6] { t := 0x02 } (by decide) (by decide)

/-- C17: for every slice `b` of 1 to 127 bytes, the name returned by `NameFromBytes` has
`Type()` equal to the XOR of all bytes of `b` and `Hash()` equal to `b` without its first
byte; and two names with the same bytes have the same `Type()`, however they were built. -/
theorem type_and_hash_of_bytes (b : List Byte) (h1 : 1 ≤ b.length) (h2 : b.length ≤ 127) :
    ∃ n, NameFromBytes b = .ok n ∧
      n.Type = { t := b.foldl (fun acc x => acc ^^^ x) 0 } ∧
      n.Hash = .ok b.tail ∧
      (∀ n1 n2 : Name, n1.Bytes = n2.Bytes → n1.Type = n2.Type) := by
  refine ⟨_, NameFromBytes_ok b h1 h2, rfl, ?_, ?_⟩
  · cases b with
    | nil => simp at h1
    | cons x xs => rfl
  · intro n1 n2 h
    simp only [Name.Bytes] at h
    simp only [Name.Type, h]

/-- Witness of C17: the three bytes `[7, 1, 2]`. -/
theorem type_and_hash_of_bytes_witness :
    ∃ n, NameFromBytes [7, 1, 2] = .ok n ∧
      n.Type = { t := [(7 : Byte), 1, 2].foldl (fun acc x => acc ^^^ x) 0 } ∧
      n.Hash = .ok [(7 : Byte), 1, 2].tail ∧
      (∀ n1 n2 : Name, n1.Bytes = n2.Bytes → n1.Type = n2.Type) :=
  type_and_hash_of_bytes [7, 1, 2] (by decide) (by decide)

/-- C18: a name returned by `NameFromHashAndType`, by `NameFromBytes` or by
`NameFromString` stores between 1 and 127 bytes, and its `Hash()` has between 0 and 126
bytes. -/
theorem name_length_bounds (n : Name)
    (h : (∃ hash t, NameFromHashAndType hash t = .ok n) ∨ (∃ b, NameFromBytes b = .ok n) ∨
      (∃ s, NameFromString s = .ok n)) :
    1 ≤ n.bn.length ∧ n.bn.length ≤ 127 ∧
      ∃ hash, n.Hash = .ok hash ∧ hash.length + 1 = n.bn.length ∧ hash.length ≤ 126 := by
  have fromBytes : ∀ b : List Byte, NameFromBytes b = .ok n →
      1 ≤ n.bn.length ∧ n.bn.length ≤ 127 := by
    intro b hb
    by_cases hc : b.length = 0 ∨ 127 < b.length
    · rw [NameFromBytes_error b hc] at hb; cases hb
    · rw [NameFromBytes_ok b (by omega) (by omega)] at hb
      cases hb
      exact ⟨by simp only; omega, by simp only; omega⟩
  have hlen : 1 ≤ n.bn.length ∧ n.bn.length ≤ 127 := by
    rcases h with ⟨hash, t, hn⟩ | ⟨b, hb⟩ | ⟨s, hs⟩
    · by_cases hc : hash.length = 0 ∨ hash.length > 0x7E
      · unfold NameFromHashAndType at hn
        rw [if_pos hc] at hn; cases hn
      · rw [NameFromHashAndType_ok hash t (by omega) (by omega)] at hn
        cases hn
        simp only [List.length_cons]
        omega
    · exact fromBytes b hb
    · unfold NameFromString at hs
      cases hd : base58.Decode s with
      | error e => rw [hd] at hs; cases hs
      | panic f => rw [hd] at hs; cases hs
      | ok d => rw [hd] at hs; exact fromBytes d hs
  refine ⟨hlen.1, hlen.2, ?_⟩
  cases hbn : n.bn with
  | nil => rw [hbn] at hlen; simp at hlen
  | cons x xs =>
    rw [hbn] at hlen
    simp only [List.length_cons] at hlen
    exact ⟨xs, by simp [Name.Hash, hbn], by simp, by omega⟩

/-- Witness of C18: the name that `NameFromBytes` builds from the single byte `[9]`. -/
theorem name_length_bounds_witness :
    (∃ b, NameFromBytes b = .ok { bn := [9] }) ∧
    1 ≤ [(9 : Byte)].length ∧ [(9 : Byte)].length ≤ 127 ∧
      ∃ hash, Name.Hash { bn := [9] } = .ok hash ∧ hash.length + 1 = [(9 : Byte)].length ∧
        hash.length ≤ 126 :=
  ⟨⟨[9], rfl⟩, name_length_bounds { bn := [9] } (Or.inr (Or.inl ⟨[9], rfl⟩))⟩

end blob

/-! ## The codec against its description -/

namespace base58

open Go

/-- The counting loop of `Encode` counts the leading zero bytes. -/
theorem countLeadingZeros_eq (b : List Byte) : countLeadingZeros b = leadingZeroBytes b := by
  unfold leadingZeroBytes
  induction b with
  | nil => rfl
  | cons x xs ih =>
    by_cases hx : x = 0
    · simp [countLeadingZeros, hx, List.takeWhile_cons, ih]
    · simp [countLeadingZeros, hx, List.takeWhile_cons]

/-- The leading `'1'` characters, counted either way. -/
theorem leadingOnes_eq (s : List Byte) : leadingOnes s = leadingOneChars s := by
  unfold leadingOneChars
  induction s with
  | nil => rfl
  | cons x xs ih =>
    by_cases hx : x = 49
    · simp [leadingOnes, hx, List.takeWhile_cons, ih]
    · simp [leadingOnes, hx, List.takeWhile_cons]

/-- The value collected digit by digit is the positional value of the numeral. -/
theorem numeralValue_eq (d : List Byte) : numeralValue d = base58Value d := by
  unfold numeralValue base58Value
  have h := foldl_digits_eq 58 (d.map digitOf) 0
  rw [List.foldl_map] at h
  rw [h, List.map_reverse]
  simp

/-- `Bytes` gives the canonical bytes. -/
theorem bigBytes_eq_canonical (v : Nat) : bigBytes v = canonicalBytes v := bigBytes_eq v

/-- The canonical bytes do not start with a zero byte. -/
theorem canonicalBytes_head_ne_zero (v : Nat) (x : Byte) (rest : List Byte)
    (h : canonicalBytes v = x :: rest) : x ≠ 0 := by
  unfold canonicalBytes at h
  have hne : Nat.digits 256 v ≠ [] := by
    intro h0; rw [h0] at h; simp at h
  have hv : v ≠ 0 := fun hv0 => hne (by rw [hv0]; simp)
  have hlast := Nat.getLast_digit_ne_zero 256 hv
  have hsplit : Nat.digits 256 v =
      (Nat.digits 256 v).dropLast ++ [(Nat.digits 256 v).getLast hne] :=
    (List.dropLast_append_getLast hne).symm
  have hlt : (Nat.digits 256 v).getLast hne < 256 :=
    Nat.digits_lt_base (by omega) (List.getLast_mem hne)
  rw [hsplit, List.reverse_append] at h
  simp only [List.reverse_cons, List.reverse_nil, List.nil_append, List.singleton_append,
    List.map_cons, List.cons.injEq] at h
  intro hx0
  apply hlast
  have := congrArg Fin.val h.1
  rw [hx0] at this
  simpa [Fin.ofNat, Nat.mod_eq_of_lt hlt] using this

/-- The canonical bytes of a number other than zero are not empty. -/
theorem canonicalBytes_ne_nil (v : Nat) (hv : v ≠ 0) : canonicalBytes v ≠ [] := by
  unfold canonicalBytes
  intro h
  have : Nat.digits 256 v = [] := by simpa using h
  exact hv (Nat.digits_eq_nil_iff_eq_zero.1 this)

/-- The digit value of a symbol other than `'1'` is not zero. -/
theorem digitOf_ne_zero (c : Byte) (hc : c ∈ btcAlphabet) (h49 : c ≠ 49) : digitOf c ≠ 0 := by
  intro h0
  have h1 := (symbolOf_digitOf c hc).1
  rw [h0] at h1
  apply h49
  rw [← h1]
  decide

/-- A numeral that does not start with `'1'` has a value other than zero. -/
theorem base58Value_ne_zero (c : Byte) (rest : List Byte) (hc : c ∈ btcAlphabet)
    (h49 : c ≠ 49) : base58Value (c :: rest) ≠ 0 := by
  unfold base58Value
  simp only [List.reverse_cons, List.map_append, List.map_cons, List.map_nil,
    Nat.ofDigits_append, Nat.ofDigits_singleton]
  have hd := digitOf_ne_zero c hc h49
  have hp : 0 < 58 ^ (List.map digitOf rest.reverse).length := Nat.pow_pos (by omega)
  have hm : 0 < 58 ^ (List.map digitOf rest.reverse).length * digitOf c :=
    Nat.mul_pos hp (Nat.pos_of_ne_zero hd)
  omega

/-- Decode of a run of `'1'` followed by a numeral that does not start with `'1'`. -/
theorem Decode_ones_append (z : Nat) (d : List Byte) (hd : ∀ c ∈ d, c ∈ btcAlphabet)
    (h1 : ∀ c rest, d = c :: rest → c ≠ 49) :
    Decode (List.replicate z 49 ++ d) =
      .ok (List.replicate z 0 ++ canonicalBytes (base58Value d)) := by
  have hall : ∀ c ∈ List.replicate z (49 : Byte) ++ d, c ∈ btcAlphabet := by
    intro c hc
    rcases List.mem_append.1 hc with hc | hc
    · rw [(List.mem_replicate.1 hc).2]; decide
    · exact hd c hc
  rw [Decode_syms _ hall, leadingOnes_replicate_append z d h1, List.drop_left' (by simp),
    numeralValue_eq, bigBytes_eq_canonical]

/-- Encode is the encoding that the spec describes. -/
theorem Encode_eq_specEncode (b : List Byte) : Encode b = specEncode b := by
  rw [Encode_eq, countLeadingZeros_eq, bigSetBytes_eq]
  rfl

end base58

namespace base58

open Go

/-- C13: for every byte sequence `b` with `Z` leading zero bytes, `Encode(b)` is `Z`
copies of `'1'` followed by the base-58 digits, most significant first, of the big-endian
value of `b[Z:]`, each digit value `v` below 58 written as the `v`-th character of
`"123456789ABCDEFGHJKLMNPQRSTUVWXYZabcdefghijkmnopqrstuvwxyz"`; when `b[Z:]` is empty
there is no digit at all. -/
theorem Encode_spec (b : List Byte) :
    Encode b = specEncode b ∧
    Encode b = List.replicate (leadingZeroBytes b) 49 ++
      (base58Digits (bigEndianValue (b.drop (leadingZeroBytes b)))).map
        (fun v => btcAlphabet.getD v 0) ∧
    (∀ v ∈ base58Digits (bigEndianValue (b.drop (leadingZeroBytes b))), v < 58) ∧
    (b.drop (leadingZeroBytes b) = [] → Encode b = List.replicate (leadingZeroBytes b) 49) ∧
    b = List.replicate (leadingZeroBytes b) 0 ++ b.drop (leadingZeroBytes b) ∧
    (∀ x rest, b.drop (leadingZeroBytes b) = x :: rest → x ≠ 0) := by
  have hs := countLeadingZeros_spec b
  rw [countLeadingZeros_eq] at hs
  refine ⟨Encode_eq_specEncode b, Encode_eq_specEncode b, ?_, ?_, hs.1, hs.2⟩
  · intro v hv
    exact Nat.digits_lt_base (by omega) (List.mem_reverse.1 hv)
  · intro hnil
    rw [Encode_eq_specEncode]
    unfold specEncode
    rw [hnil]
    simp [bigEndianValue, base58Digits]

/-- C14: for a string of alphabet symbols made of `Z` characters `'1'` and a rest `d`
that is empty or starts with another symbol, `Decode` returns `Z` zero bytes followed by
the canonical big-endian bytes of the integer whose base-58 numeral is `d`; these bytes
do not start with a zero byte, and when `d` is not empty the integer is not zero and the
byte at index `Z` of the result is not zero. -/
theorem Decode_spec (z : Nat) (d : List Byte) (hd : ∀ c ∈ d, c ∈ btcAlphabet)
    (hfirst : d.head? ≠ some 49) :
    Decode (List.replicate z 49 ++ d) =
      .ok (List.replicate z 0 ++ canonicalBytes (base58Value d)) ∧
    (∀ x rest, canonicalBytes (base58Value d) = x :: rest → x ≠ 0) ∧
    (d = [] → canonicalBytes (base58Value d) = []) ∧
    (d ≠ [] → base58Value d ≠ 0 ∧
      ∃ x, (List.replicate z 0 ++ canonicalBytes (base58Value d))[z]? = some x ∧ x ≠ 0) := by
  have h1 : ∀ c rest, d = c :: rest → c ≠ 49 := by
    intro c rest hcr h49
    apply hfirst
    rw [hcr, h49]
    rfl
  refine ⟨Decode_ones_append z d hd h1, canonicalBytes_head_ne_zero _, ?_, ?_⟩
  · intro hnil
    rw [hnil]
    simp [base58Value, canonicalBytes]
  · intro hne
    cases d with
    | nil => exact absurd rfl hne
    | cons c rest =>
      have hv := base58Value_ne_zero c rest (hd c (List.mem_cons_self _ _)) (h1 c rest rfl)
      refine ⟨hv, ?_⟩
      cases hcb : canonicalBytes (base58Value (c :: rest)) with
      | nil => exact absurd hcb (canonicalBytes_ne_nil _ hv)
      | cons x xs =>
        refine ⟨x, ?_, canonicalBytes_head_ne_zero _ x xs hcb⟩
        rw [List.getElem?_append_right (by simp)]
        simp

/-- Witness of C14: the string `"11233QC4"` of the test, two `'1'` and the rest
`"233QC4"`. -/
theorem Decode_spec_witness :
    Decode (List.replicate 2 49 ++ asciiBytes "233QC4") =
      .ok (List.replicate 2 0 ++ canonicalBytes (base58Value (asciiBytes "233QC4"))) ∧
    (∀ x rest, canonicalBytes (base58Value (asciiBytes "233QC4")) = x :: rest → x ≠ 0) ∧
    (asciiBytes "233QC4" = [] → canonicalBytes (base58Value (asciiBytes "233QC4")) = []) ∧
    (asciiBytes "233QC4" ≠ [] → base58Value (asciiBytes "233QC4") ≠ 0 ∧
      ∃ x, (List.replicate 2 0 ++
        canonicalBytes (base58Value (asciiBytes "233QC4")))[2]? = some x ∧ x ≠ 0) :=
  Decode_spec 2 (asciiBytes "233QC4") (by decide!) (by decide!)

/-- C15: the number of leading `'1'` characters of `Encode(b)` is the number of leading
zero bytes of `b`: the output starts with that many `'1'` and the character right
after them, if there is one, is not `'1'`. -/
theorem Encode_leading_ones (b : List Byte) :
    leadingOneChars (Encode b) = leadingZeroBytes b ∧
    (Encode b).take (leadingZeroBytes b) = List.replicate (leadingZeroBytes b) 49 ∧
    (∀ c, (Encode b)[leadingZeroBytes b]? = some c → c ≠ 49) := by
  obtain ⟨_, hfirst, _⟩ := digit_symbols_spec (bigSetBytes (b.drop (countLeadingZeros b)))
  have he := Encode_eq b
  rw [countLeadingZeros_eq] at he hfirst
  refine ⟨?_, ?_, ?_⟩
  · rw [← leadingOnes_eq, he, leadingOnes_replicate_append _ _ hfirst]
  · rw [he, List.take_left' (by simp)]
  · intro c hc
    rw [he, List.getElem?_append_right (by simp)] at hc
    simp only [List.length_replicate, Nat.sub_self] at hc
    cases hl : (Nat.digits 58 (bigSetBytes (b.drop (leadingZeroBytes b)))).reverse.map
        symbolOf with
    | nil => rw [hl] at hc; simp at hc
    | cons x xs =>
      rw [hl] at hc
      simp only [List.getElem?_cons_zero, Option.some.injEq] at hc
      rw [← hc]
      exact hfirst x xs hl

end base58

/-! ## The tag byte -/

namespace blob

open Go

/-- XOR twice by the same byte gives the byte back. -/
theorem xor_xor_cancel (a b : Byte) : a ^^^ (a ^^^ b) = b := by
  rw [← Byte.xor_assoc, Byte.xor_self, Byte.zero_xor]

/-- The XOR fold of a slice with one byte put in the middle. -/
theorem foldl_xor_middle (p q : List Byte) (x : Byte) :
    (p ++ x :: q).foldl (fun acc b => acc ^^^ b) 0 =
      (p.foldl (fun acc b => acc ^^^ b) 0 ^^^ q.foldl (fun acc b => acc ^^^ b) 0) ^^^ x := by
  rw [List.foldl_append, List.foldl_cons, foldl_xor_init q]
  generalize p.foldl (fun acc b => acc ^^^ b) 0 = P
  generalize q.foldl (fun acc b => acc ^^^ b) 0 = Q
  apply Fin.ext
  simp only [Byte.xor_val]
  ac_rfl

/-- The tag byte of a hash of accepted length. -/
theorem tagByte_eq (h : List Byte) (t : BlobType) (h1 : 1 ≤ h.length) (h2 : h.length ≤ 126) :
    tagByte h t = some (t.t ^^^ h.foldl (fun acc b => acc ^^^ b) 0) := by
  unfold tagByte
  rw [NameFromHashAndType_ok h t h1 h2]
  simp only [List.head?_cons]
  rw [foldl_xor_init h t.t]

/-- The tag byte as a function of the byte at one position of the hash: a constant XOR
that byte. -/
theorem tagByte_set (h : List Byte) (t : BlobType) (i : Nat) (h1 : 1 ≤ h.length)
    (h2 : h.length ≤ 126) (hi : i < h.length) (x : Byte) :
    tagByte (h.set i x) t =
      some ((t.t ^^^ ((h.take i).foldl (fun acc b => acc ^^^ b) 0 ^^^
        (h.drop (i + 1)).foldl (fun acc b => acc ^^^ b) 0)) ^^^ x) := by
  rw [tagByte_eq _ t (by simpa using h1) (by simpa using h2)]
  rw [List.set_eq_take_append_cons_drop, if_pos hi, foldl_xor_middle, ← Byte.xor_assoc t.t]

/-- The hashes of `m + 1` bytes with a given tag byte are as many as the sequences of
`m` bytes: the first byte is determined by the others. -/
theorem card_tagByte (m : Nat) (hm : m + 1 ≤ 126) (t : BlobType) (v : Byte) :
    Fintype.card {f : Fin (m + 1) → Byte // tagByte (List.ofFn f) t = some v} = 256 ^ m := by
  have htag : ∀ f : Fin (m + 1) → Byte, tagByte (List.ofFn f) t =
      some ((t.t ^^^ (List.ofFn (Fin.tail f)).foldl (fun acc b => acc ^^^ b) 0) ^^^ f 0) := by
    intro f
    rw [tagByte_eq _ t (by simp) (by simpa using hm), List.ofFn_succ]
    have := foldl_xor_middle [] (List.ofFn fun i => f i.succ) (f 0)
    simp only [List.nil_append, List.foldl_nil, Byte.zero_xor] at this
    rw [this, ← Byte.xor_assoc t.t]
    rfl
  have hcard : Fintype.card (Fin m → Byte) = 256 ^ m := by
    rw [Fintype.card_fun, Fintype.card_fin, Fintype.card_fin]
  rw [← hcard]
  refine Fintype.card_congr
    { toFun := fun f => Fin.tail f.1
      invFun := fun g =>
        ⟨Fin.cons ((t.t ^^^ (List.ofFn g).foldl (fun acc b => acc ^^^ b) 0) ^^^ v) g, ?_⟩
      left_inv := ?_
      right_inv := ?_ }
  · rw [htag, Fin.tail_cons, Fin.cons_zero, xor_xor_cancel]
  · rintro ⟨f, hf⟩
    apply Subtype.ext
    simp only
    rw [htag] at hf
    have hf0 : f 0 = (t.t ^^^ (List.ofFn (Fin.tail f)).foldl (fun acc b => acc ^^^ b) 0) ^^^ v := by
      rw [← Option.some.inj hf, xor_xor_cancel]
    rw [← hf0]
    exact Fin.cons_self_tail f
  · intro g
    simp only [Fin.tail_cons]

/-- C19: for every type byte, every hash of 1 to 126 bytes and every position in it, with
the other bytes of the hash kept fixed, each value of the tag byte is produced by exactly
one value of the byte at that position; and for every length `n` from 1 to 126 and every
value `v`, exactly `256 ^ (n - 1)` hashes of `n` bytes have the tag byte `v`. -/
theorem tag_byte_uniform (h : List Byte) (t : BlobType) (i : Nat) (h1 : 1 ≤ h.length)
    (h2 : h.length ≤ 126) (hi : i < h.length) :
    (∀ v : Byte, ∃! x : Byte, tagByte (h.set i x) t = some v) ∧
    Function.Bijective (fun x : Byte => (tagByte (h.set i x) t).getD 0) ∧
    (∀ (n : Nat) (v : Byte), 1 ≤ n → n ≤ 126 →
      Fintype.card {f : Fin n → Byte // tagByte (List.ofFn f) t = some v} = 256 ^ (n - 1)) := by
  have huniq : ∀ v : Byte, ∃! x : Byte, tagByte (h.set i x) t = some v := by
    intro v
    refine ⟨(t.t ^^^ ((h.take i).foldl (fun acc b => acc ^^^ b) 0 ^^^
        (h.drop (i + 1)).foldl (fun acc b => acc ^^^ b) 0)) ^^^ v, ?_, ?_⟩
    · simp only
      rw [tagByte_set h t i h1 h2 hi, xor_xor_cancel]
    · intro y hy
      rw [tagByte_set h t i h1 h2 hi] at hy
      rw [← Option.some.inj hy, xor_xor_cancel]
  refine ⟨huniq, ⟨?_, ?_⟩, ?_⟩
  · intro x y hxy
    simp only [tagByte_set h t i h1 h2 hi, Option.getD_some] at hxy
    have := congrArg (fun z => (t.t ^^^ ((h.take i).foldl (fun acc b => acc ^^^ b) 0 ^^^
        (h.drop (i + 1)).foldl (fun acc b => acc ^^^ b) 0)) ^^^ z) hxy
    simpa only [xor_xor_cancel] using this
  · intro v
    obtain ⟨x, hx, _⟩ := huniq v
    exact ⟨x, by simp only [hx, Option.getD_some]⟩
  · intro n v hn1 hn2
    obtain ⟨m, rfl⟩ : ∃ m, n = m + 1 := ⟨n - 1, by omega⟩
    exact card_tagByte m hn2 t v

/-- Witness of C19: the hash `[1, 2, 3, 4, 5, 6]` of the test, its byte at position 3,
and the type `0xFE`. -/
theorem tag_byte_uniform_witness :
    (∀ v : Byte, ∃! x : Byte, tagByte ([1, 2, 3, 4, 5, 6].set 3 x) { t := 0xFE } = some v) ∧
    Function.Bijective
      (fun x : Byte => (tagByte ([1, 2, 3, 4, 5, 6].set 3 x) { t := 0xFE }).getD 0) ∧
    (∀ (n : Nat) (v : Byte), 1 ≤ n → n ≤ 126 →
      Fintype.card {f : Fin n → Byte // tagByte (List.ofFn f) { t := 0xFE } = some v} =
        256 ^ (n - 1)) :=
  tag_byte_uniform [1, 2, 3, 4, 5, 6] { t := 0xFE } 3 (by decide) (by decide) (by decide)

end blob

/-! ## Package cutl: panics -/

namespace cutl

/-- C22, the claim as stated fails: `PanicIf(true, x)` with `x` a nil `error` does not
panic with `x`; the value of the panic is a `*runtime.PanicNilError`. -/
theorem PanicIf_nil_interface :
    PanicIf true (none : Option Go.Error) = .panics .PanicNilError ∧
    ¬ ((PanicIf true (none : Option Go.Error)).panicsWith none ↔ true = true) := by
  refine ⟨rfl, ?_⟩
  intro h
  exact h.2 rfl

/-- C22, amended: `Must(v, e)` returns `v` when `e` is nil and panics with `e` otherwise;
`Must2` does the same with its pair of values; `PanicIf(c, x)` panics exactly when `c` is
true, with `x` as the value of the panic when `x` is not a nil interface value and with a
`*runtime.PanicNilError` when it is. -/
theorem must_spec {T T1 T2 E X : Type} (v : T) (v1 : T1) (v2 : T2) (e : E) (c : Bool)
    (x : Option X) (a : X) :
    Must v (none : Option E) = .returns v ∧
    Must v (some e) = .panics (.value e) ∧ (Must v (some e)).panicsWith (some e) ∧
    Must2 v1 v2 (none : Option E) = .returns (v1, v2) ∧
    Must2 v1 v2 (some e) = .panics (.value e) ∧ (Must2 v1 v2 (some e)).panicsWith (some e) ∧
    ((∃ p, PanicIf c x = .panics p) ↔ c = true) ∧
    (PanicIf c x = .returns () ↔ c = false) ∧
    ((PanicIf c (some a)).panicsWith (some a) ↔ c = true) ∧
    (PanicIf c (some a) = .panics (.value a) ↔ c = true) ∧
    (PanicIf c (none : Option X) = .panics .PanicNilError ↔ c = true) ∧
    PanicIfError (none : Option E) = .returns () ∧
    PanicIfError (some e) = .panics (.value e) := by
  refine ⟨rfl, rfl, rfl, rfl, rfl, rfl, ?_, ?_, ?_, ?_, ?_, rfl, rfl⟩
  · cases c <;> cases x <;> simp [PanicIf, goPanic]
  · cases c <;> cases x <;> simp [PanicIf, goPanic]
  · cases c <;> simp [PanicIf, goPanic, Outcome.panicsWith]
  · cases c <;> simp [PanicIf, goPanic]
  · cases c <;> simp [PanicIf, goPanic]

end cutl

/-! ## The alphabet -/

namespace base58

open Go

/-- The table `btc2bn` holds zero exactly at the bytes that are not symbols. -/
theorem btc2bn_zero_iff (c : Byte) : btc2bn[c.val]? = some 0 ↔ c ∉ btcAlphabet := by
  rw [btc2bn_lookup c]
  by_cases hm : c ∈ btcAlphabet
  · simp only [hm, if_true, Option.some.injEq, not_true_eq_false, iff_false]
    exact bigDigit_ne_zero c hm
  · simp [hm]

/-- C23: the alphabet is 58 pairwise distinct characters, the `d`-th of which stands for
the digit value `d`; the two tables are inverse to each other on the 58 symbols and the
58 digit characters of `math/big`; `btc2bn` is zero exactly at the bytes that are not
symbols; and `'0'`, `'O'`, `'I'` and `'l'` are not symbols. -/
theorem alphabet_bijection :
    btcAlphabet.length = 58 ∧ btcAlphabet.Nodup ∧
    bitNumDigits.length = 58 ∧ bitNumDigits.Nodup ∧ bitNumDigits = bigDigits.take 58 ∧
    (∀ d : Fin 58, digitOf (btcAlphabet.getD d.val 0) = d.val) ∧
    (∀ c : Byte, c ∈ btcAlphabet → btcAlphabet.getD (digitOf c) 0 = c ∧ digitOf c < 58) ∧
    (∀ d : Fin 58, bn2btc[(bitNumDigits.getD d.val 0).val]? = some (btcAlphabet.getD d.val 0) ∧
      btc2bn[(btcAlphabet.getD d.val 0).val]? = some (bitNumDigits.getD d.val 0)) ∧
    (∀ c : Byte, c ∈ btcAlphabet → ∃ g, btc2bn[c.val]? = some g ∧ bn2btc[g.val]? = some c) ∧
    (∀ g : Byte, g ∈ bitNumDigits → ∃ c, bn2btc[g.val]? = some c ∧ btc2bn[c.val]? = some g) ∧
    (∀ c : Byte, btc2bn[c.val]? = some 0 ↔ c ∉ btcAlphabet) ∧
    (48 : Byte) ∉ btcAlphabet ∧ (79 : Byte) ∉ btcAlphabet ∧ (73 : Byte) ∉ btcAlphabet ∧
    (108 : Byte) ∉ btcAlphabet := by
  have hpair : ∀ d : Fin 58,
      bn2btc[(bitNumDigits.getD d.val 0).val]? = some (btcAlphabet.getD d.val 0) ∧
      btc2bn[(btcAlphabet.getD d.val 0).val]? = some (bitNumDigits.getD d.val 0) := by
    decide!
  have hmemA : ∀ c : Byte, c ∈ btcAlphabet → ∃ d : Fin 58, c = btcAlphabet.getD d.val 0 := by
    intro c hc
    exact ⟨⟨digitOf c, (symbolOf_digitOf c hc).2⟩, (symbolOf_digitOf c hc).1.symm⟩
  have hmemB : ∀ g : Byte, g ∈ bitNumDigits → ∃ d : Fin 58, g = bitNumDigits.getD d.val 0 := by
    have hlen : bitNumDigits.length = 58 := by decide!
    intro g hg
    obtain ⟨i, hi, hgi⟩ := List.getElem_of_mem hg
    refine ⟨⟨i, by omega⟩, ?_⟩
    simp only [List.getD_eq_getElem?_getD, List.getElem?_eq_getElem hi, Option.getD_some, hgi]
  refine ⟨by decide!, by decide!, by decide!, by decide!, by decide!, digitOf_symbolOf,
    symbolOf_digitOf, hpair, ?_, ?_, btc2bn_zero_iff, by decide!, by decide!, by decide!,
    by decide!⟩
  · intro c hc
    obtain ⟨d, rfl⟩ := hmemA c hc
    exact ⟨_, (hpair d).2, (hpair d).1⟩
  · intro g hg
    obtain ⟨d, rfl⟩ := hmemB g hg
    exact ⟨_, (hpair d).1, (hpair d).2⟩

/-- C24: for every `k`, `Decode` of `k` characters `'1'` returns `k` zero bytes and no
error; in particular `Decode` of the empty string returns the empty byte sequence. -/
theorem Decode_ones (k : Nat) :
    Decode (List.replicate k 49) = .ok (List.replicate k 0) ∧ Decode [] = .ok [] := by
  have h := fun z => Decode_ones_append z [] (by simp) (by simp)
  have hc : canonicalBytes (base58Value []) = [] := by simp [base58Value, canonicalBytes]
  simp only [List.append_nil, hc] at h
  exact ⟨h k, h 0⟩

end base58

/-! ## Names of one byte, and names rebuilt from their parts -/

namespace blob

open Go

/-- C26: for every byte `x`, `NameFromBytes([x])` returns a name with an empty `Hash()`
and `Type()` equal to `x`, whereas no hash and type make `NameFromHashAndType` return a
name of one byte: the names it returns have at least two bytes. -/
theorem one_byte_name (x : Byte) :
    (∃ n, NameFromBytes [x] = .ok n ∧ n.Bytes = [x] ∧ n.Hash = .ok [] ∧ n.Type = { t := x }) ∧
    (∀ h t n, NameFromHashAndType h t = .ok n → 2 ≤ n.Bytes.length) ∧
    (∀ t, NameFromHashAndType [] t = .error .ErrInvalidBlobName) := by
  refine ⟨⟨_, NameFromBytes_ok [x] (by simp) (by simp), rfl, rfl, ?_⟩, ?_, ?_⟩
  · simp [Name.Type, Byte.zero_xor]
  · intro h t n hn
    by_cases hc : h.length = 0 ∨ h.length > 0x7E
    · unfold NameFromHashAndType at hn
      rw [if_pos hc] at hn; cases hn
    · rw [NameFromHashAndType_ok h t (by omega) (by omega)] at hn
      cases hn
      simp only [Name.Bytes, List.length_cons]
      omega
  · intro t; rfl

/-- A name of two bytes or more is rebuilt from its hash and its type. -/
theorem repack (x : Byte) (xs : List Byte) (h1 : 1 ≤ xs.length) (h2 : xs.length ≤ 126) :
    NameFromHashAndType xs (Name.Type { bn := x :: xs }) = .ok { bn := x :: xs } := by
  rw [NameFromHashAndType_ok xs _ h1 h2]
  simp only [Name.Type, List.foldl_cons, Byte.zero_xor]
  rw [foldl_xor_init xs x, foldl_xor_init xs (x ^^^ _), Byte.xor_assoc, Byte.xor_self,
    Byte.xor_zero]

/-- C28: for every slice `b` of 2 to 127 bytes, `NameFromHashAndType` of the `Hash()` and
the `Type()` of `NameFromBytes(b)` returns a name with the bytes `b`; two pairs of hash
and type that give the same name are the same pair, and the names that
`NameFromHashAndType` returns have 2 to 127 bytes: it is a bijection from the pairs with
a hash of 1 to 126 bytes onto the byte sequences of 2 to 127 bytes. -/
theorem repack_round_trip (b : List Byte) (h1 : 2 ≤ b.length) (h2 : b.length ≤ 127) :
    (∃ n hash n2, NameFromBytes b = .ok n ∧ n.Hash = .ok hash ∧
      1 ≤ hash.length ∧ hash.length ≤ 126 ∧
      NameFromHashAndType hash n.Type = .ok n2 ∧ n2.Bytes = b) ∧
    (∀ ha hb ta tb n, NameFromHashAndType ha ta = .ok n → NameFromHashAndType hb tb = .ok n →
      ha = hb ∧ ta = tb) ∧
    (∀ h t n, NameFromHashAndType h t = .ok n → 2 ≤ n.Bytes.length ∧ n.Bytes.length ≤ 127) := by
  have hok : ∀ h t n, NameFromHashAndType h t = .ok n →
      1 ≤ h.length ∧ h.length ≤ 126 ∧
        n = { bn := h.foldl (fun acc b => acc ^^^ b) t.t :: h } := by
    intro h t n hn
    by_cases hc : h.length = 0 ∨ h.length > 0x7E
    · unfold NameFromHashAndType at hn
      rw [if_pos hc] at hn; cases hn
    · rw [NameFromHashAndType_ok h t (by omega) (by omega)] at hn
      cases hn
      exact ⟨by omega, by omega, rfl⟩
  refine ⟨?_, ?_, ?_⟩
  · cases b with
    | nil => simp at h1
    | cons x xs =>
      simp only [List.length_cons] at h1 h2
      exact ⟨_, xs, _, NameFromBytes_ok (x :: xs) (by simp) (by simpa using h2), rfl,
        by omega, by omega, repack x xs (by omega) (by omega), rfl⟩
  · intro ha hb ta tb n hna hnb
    obtain ⟨_, _, ea⟩ := hok ha ta n hna
    obtain ⟨_, _, eb⟩ := hok hb tb n hnb
    rw [ea] at eb
    simp only [Name.mk.injEq, List.cons.injEq] at eb
    obtain ⟨htag, hh⟩ := eb
    subst hh
    refine ⟨rfl, ?_⟩
    rw [foldl_xor_init ha ta.t, foldl_xor_init ha tb.t] at htag
    have := congrArg (fun z => z ^^^ ha.foldl (fun acc b => acc ^^^ b) 0) htag
    simp only [Byte.xor_assoc, Byte.xor_self, Byte.xor_zero] at this
    cases ta; cases tb
    simpa using this
  · intro h t n hn
    obtain ⟨hl1, hl2, rfl⟩ := hok h t n hn
    simp only [Name.Bytes, List.length_cons]
    omega

/-- Witness of C28: the seven bytes `[7, 1, 2, 3, 4, 5, 6]`. -/
theorem repack_round_trip_witness :
    ∃ n hash n2, NameFromBytes [7, 1, 2, 3, 4, 5, 6] = .ok n ∧ n.Hash = .ok hash ∧
      1 ≤ hash.length ∧ hash.length ≤ 126 ∧
      NameFromHashAndType hash n.Type = .ok n2 ∧ n2.Bytes = [7, 1, 2, 3, 4, 5, 6] :=
  (repack_round_trip [7, 1, 2, 3, 4, 5, 6] (by decide) (by decide)).1

end blob

/-! ## Canonical text -/

namespace base58

open Go

/-- The big-endian value of the canonical bytes of a number is the number. -/
theorem bigEndianValue_canonicalBytes (v : Nat) : bigEndianValue (canonicalBytes v) = v := by
  unfold bigEndianValue canonicalBytes
  rw [← List.map_reverse, List.reverse_reverse, List.map_map]
  have hid : (Nat.digits 256 v).map ((fun x : Byte => x.val) ∘ fun d => Fin.ofNat d) =
      Nat.digits 256 v := by
    conv_rhs => rw [← List.map_id (Nat.digits 256 v)]
    apply List.map_congr_left
    intro d hd
    have hlt : d < 256 := Nat.digits_lt_base (by omega) hd
    simp [Fin.ofNat, Nat.mod_eq_of_lt hlt]
  rw [hid, Nat.ofDigits_digits]

/-- A string splits into its leading `'1'` characters and a rest that does not start
with `'1'`. -/
theorem leadingOnes_split (s : List Byte) :
    s = List.replicate (leadingOnes s) 49 ++ s.drop (leadingOnes s) ∧
    (s.drop (leadingOnes s)).head? ≠ some 49 := by
  induction s with
  | nil => simp [leadingOnes]
  | cons x xs ih =>
    by_cases hx : x = 49
    · subst hx
      simp only [leadingOnes, if_true, List.replicate_succ, List.drop_succ_cons,
        List.cons_append, List.cons.injEq, true_and]
      exact ih
    · simp [leadingOnes, hx]

/-- The leading zero bytes of a run of zero bytes followed by a slice that does not
start with a zero byte. -/
theorem countLeadingZeros_replicate_append (z : Nat) (r : List Byte)
    (h : ∀ x rest, r = x :: rest → x ≠ 0) :
    countLeadingZeros (List.replicate z 0 ++ r) = z := by
  induction z with
  | zero =>
    cases r with
    | nil => rfl
    | cons x rest => simp [countLeadingZeros, h x rest rfl]
  | succ z ih => simp [List.replicate_succ, countLeadingZeros, ih]

/-- The base-58 digits of the value of a numeral that does not start with `'1'` are the
digit values of its symbols. -/
theorem digits_base58Value (d : List Byte) (hd : ∀ c ∈ d, c ∈ btcAlphabet)
    (hfirst : d.head? ≠ some 49) :
    Nat.digits 58 (base58Value d) = d.reverse.map digitOf := by
  unfold base58Value
  apply Nat.digits_ofDigits 58 (by omega)
  · intro l hl
    obtain ⟨c, hc, rfl⟩ := List.mem_map.1 hl
    exact (symbolOf_digitOf c (hd c (List.mem_reverse.1 hc))).2
  · intro hne
    cases d with
    | nil => simp at hne
    | cons c rest =>
      have h49 : c ≠ 49 := by
        intro h; apply hfirst; rw [h]; rfl
      simp only [List.reverse_cons, List.map_append, List.map_cons, List.map_nil,
        List.getLast_append_singleton]
      exact digitOf_ne_zero c (hd c (List.mem_cons_self _ _)) h49

/-- Encoding the decoded bytes of a string of symbols gives the string back. -/
theorem Encode_Decode (s : List Byte) (h : ∀ c ∈ s, c ∈ btcAlphabet) :
    ∃ b, Decode s = .ok b ∧ Encode b = s := by
  obtain ⟨hsplit, hfirst⟩ := leadingOnes_split s
  have hd : ∀ c ∈ s.drop (leadingOnes s), c ∈ btcAlphabet :=
    fun c hc => h c (List.mem_of_mem_drop hc)
  have h1 : ∀ c rest, s.drop (leadingOnes s) = c :: rest → c ≠ 49 := by
    intro c rest hcr h49
    apply hfirst
    rw [hcr, h49]; rfl
  have hdec := Decode_ones_append (leadingOnes s) (s.drop (leadingOnes s)) hd h1
  rw [← hsplit] at hdec
  refine ⟨_, hdec, ?_⟩
  rw [Encode_eq, countLeadingZeros_replicate_append _ _ (canonicalBytes_head_ne_zero _),
    List.drop_left' (by simp), bigSetBytes_eq]
  have hv : Nat.ofDigits 256 ((canonicalBytes (base58Value (s.drop (leadingOnes s)))).reverse.map
      fun b => b.val) = base58Value (s.drop (leadingOnes s)) :=
    bigEndianValue_canonicalBytes _
  rw [hv, digits_base58Value _ hd hfirst, ← List.map_reverse, List.reverse_reverse, List.map_map]
  have hid : (s.drop (leadingOnes s)).map (symbolOf ∘ digitOf) = s.drop (leadingOnes s) := by
    conv_rhs => rw [← List.map_id (s.drop (leadingOnes s))]
    apply List.map_congr_left
    intro c hc
    exact (symbolOf_digitOf c (hd c hc)).1
  rw [hid]
  exact hsplit.symm

/-- The output of Encode is a string of symbols. -/
theorem Encode_syms (b : List Byte) : ∀ c ∈ Encode b, c ∈ btcAlphabet := by
  intro c hc
  rw [Encode_eq, List.mem_append] at hc
  rcases hc with hc | hc
  · rw [(List.mem_replicate.1 hc).2]; decide
  · exact (digit_symbols_spec _).1 c hc

/-- C25: a `'1'` after the leading run is a digit of value 0 and adds no zero byte: for a
non-empty string `d` of symbols that does not start with `'1'`, `Decode` of `d` followed
by `"1"` succeeds, its result does not start with a zero byte, and the big-endian value
of the result is 58 times that of `Decode(d)`; `Decode("21")` is the byte 58. -/
theorem Decode_trailing_one (d : List Byte) (hne : d ≠ []) (hd : ∀ c ∈ d, c ∈ btcAlphabet)
    (hfirst : d.head? ≠ some 49) :
    (∃ r1 r2, Decode d = .ok r1 ∧ Decode (d ++ [49]) = .ok r2 ∧
      r2.head? ≠ some 0 ∧ r2 ≠ [] ∧ bigEndianValue r2 = 58 * bigEndianValue r1) ∧
    Decode (asciiBytes "21") = .ok [58] := by
  refine ⟨?_, by decide!⟩
  have toAll : ∀ l : List Byte, l.head? ≠ some 49 → ∀ c rest, l = c :: rest → c ≠ 49 := by
    intro l hl c rest hcr h49
    apply hl
    rw [hcr, h49]; rfl
  have hd2 : ∀ c ∈ d ++ [49], c ∈ btcAlphabet := by
    intro c hc
    rcases List.mem_append.1 hc with hc | hc
    · exact hd c hc
    · rw [List.mem_singleton.1 hc]; decide
  have hfirst2 : (d ++ [49]).head? ≠ some 49 := by
    cases d with
    | nil => exact absurd rfl hne
    | cons c rest => simpa using hfirst
  have e1 := Decode_ones_append 0 d hd (toAll d hfirst)
  have e2 := Decode_ones_append 0 (d ++ [49]) hd2 (toAll _ hfirst2)
  simp only [List.replicate_zero, List.nil_append] at e1 e2
  have hval : base58Value (d ++ [49]) = 58 * base58Value d := by
    unfold base58Value
    have h0 : digitOf 49 = 0 := by decide
    simp [Nat.ofDigits_cons, h0]
  have hv2 : base58Value (d ++ [49]) ≠ 0 := by
    cases d with
    | nil => exact absurd rfl hne
    | cons c rest =>
      exact base58Value_ne_zero c (rest ++ [49]) (hd c (List.mem_cons_self _ _))
        (toAll _ hfirst c rest rfl)
  refine ⟨_, _, e1, e2, ?_, canonicalBytes_ne_nil _ hv2, ?_⟩
  · intro hh
    cases hcb : canonicalBytes (base58Value (d ++ [49])) with
    | nil => rw [hcb] at hh; simp at hh
    | cons x xs =>
      rw [hcb] at hh
      simp only [List.head?_cons, Option.some.injEq] at hh
      exact canonicalBytes_head_ne_zero _ x xs hcb hh
  · rw [bigEndianValue_canonicalBytes, bigEndianValue_canonicalBytes, hval]

/-- Witness of C25: the string `"2NEpo7TZRRrLZSi2U"` of the test. -/
theorem Decode_trailing_one_witness :
    ∃ r1 r2, Decode (asciiBytes "2NEpo7TZRRrLZSi2U") = .ok r1 ∧
      Decode (asciiBytes "2NEpo7TZRRrLZSi2U" ++ [49]) = .ok r2 ∧
      r2.head? ≠ some 0 ∧ r2 ≠ [] ∧ bigEndianValue r2 = 58 * bigEndianValue r1 :=
  (Decode_trailing_one (asciiBytes "2NEpo7TZRRrLZSi2U") (by decide!) (by decide!)
    (by decide!)).1

/-- C27: base-58 text is canonical: for every string `s` of alphabet symbols,
`Encode(Decode(s))` is `s`; so two strings of symbols with the same decoded bytes are the
same string, and with `Decode(Encode(b)) = b`, whose string is made of symbols, `Encode`
and `Decode` are inverse bijections between byte sequences and strings of symbols. -/
theorem canonical_text (s : List Byte) (h : ∀ c ∈ s, c ∈ btcAlphabet) :
    (∃ b, Decode s = .ok b ∧ Encode b = s) ∧
    (∀ s2 : List Byte, (∀ c ∈ s2, c ∈ btcAlphabet) → Decode s2 = Decode s → s2 = s) ∧
    (∀ b : List Byte, (∀ c ∈ Encode b, c ∈ btcAlphabet) ∧ Decode (Encode b) = .ok b) ∧
    (∀ b1 b2 : List Byte, Encode b1 = Encode b2 → b1 = b2) := by
  refine ⟨Encode_Decode s h, ?_, fun b => ⟨Encode_syms b, Decode_Encode b⟩, ?_⟩
  · intro s2 h2 heq
    obtain ⟨b, hb, he⟩ := Encode_Decode s h
    obtain ⟨b2, hb2, he2⟩ := Encode_Decode s2 h2
    rw [hb, hb2] at heq
    cases heq
    rw [← he, ← he2]
  · intro b1 b2 heq
    have h1 := Decode_Encode b1
    rw [heq, Decode_Encode b2] at h1
    cases h1
    rfl

/-- Witness of C27: the string `"11233QC4"` of the test. -/
theorem canonical_text_witness :
    ∃ b, Decode (asciiBytes "11233QC4") = .ok b ∧ Encode b = asciiBytes "11233QC4" :=
  (canonical_text (asciiBytes "11233QC4") (by decide!)).1

end base58

/-! ## The length of the text -/

namespace base58

open Go

/-- A number with `m` digits in base 256 has between `m` and `2 * m` digits in base 58. -/
theorem digits_len_bounds (v : Nat) (hv : v ≠ 0) :
    (Nat.digits 256 v).length ≤ (Nat.digits 58 v).length ∧
    (Nat.digits 58 v).length ≤ 2 * (Nat.digits 256 v).length := by
  have a1 : 58 ^ (Nat.digits 58 v).length ≤ 58 * v := Nat.base_pow_length_digits_le 58 v (by omega) hv
  have a2 : v < 58 ^ (Nat.digits 58 v).length := Nat.lt_base_pow_length_digits (by omega)
  have b1 : 256 ^ (Nat.digits 256 v).length ≤ 256 * v :=
    Nat.base_pow_length_digits_le 256 v (by omega) hv
  have b2 : v < 256 ^ (Nat.digits 256 v).length := Nat.lt_base_pow_length_digits (by omega)
  generalize (Nat.digits 58 v).length = D at a1 a2
  generalize (Nat.digits 256 v).length = m at b1 b2
  constructor
  · by_contra hlt
    have hD : D + 1 ≤ m := by omega
    have h1 : (256 : Nat) ^ (D + 1) ≤ 256 ^ m := Nat.pow_le_pow_right (by omega) hD
    have h2 : (58 : Nat) ^ D ≤ 256 ^ D := Nat.pow_le_pow_left (by omega) D
    have h3 : (256 : Nat) ^ (D + 1) = 256 * 256 ^ D := by rw [Nat.pow_succ]; ring
    omega
  · by_contra hlt
    have hD : 2 * m + 1 ≤ D := by omega
    have h1 : (58 : Nat) ^ (2 * m + 1) ≤ 58 ^ D := Nat.pow_le_pow_right (by omega) hD
    have h2 : (58 : Nat) ^ (2 * m + 1) = 58 * (58 ^ 2) ^ m := by
      rw [Nat.pow_succ, Nat.pow_mul]; ring
    have h3 : (256 : Nat) ^ m ≤ (58 ^ 2) ^ m := Nat.pow_le_pow_left (by norm_num) m
    omega

/-- The text is at least as long as the bytes and at most twice as long. -/
theorem Encode_length_bounds (b : List Byte) :
    b.length ≤ (Encode b).length ∧ (Encode b).length ≤ 2 * b.length := by
  obtain ⟨hsplit, hhead⟩ := countLeadingZeros_spec b
  have hlen : b.length = countLeadingZeros b + (b.drop (countLeadingZeros b)).length := by
    conv_lhs => rw [hsplit]
    simp
  have hcan := bigBytes_bigSetBytes _ hhead
  rw [bigBytes_eq] at hcan
  have hm : (Nat.digits 256 (bigSetBytes (b.drop (countLeadingZeros b)))).length =
      (b.drop (countLeadingZeros b)).length := by
    have := congrArg List.length hcan
    simpa using this
  rw [Encode_eq]
  simp only [List.length_append, List.length_replicate, List.length_map, List.length_reverse]
  by_cases hv : bigSetBytes (b.drop (countLeadingZeros b)) = 0
  · rw [hv] at hm ⊢
    simp only [Nat.digits_zero, List.length_nil] at hm ⊢
    omega
  · have hb := digits_len_bounds _ hv
    rw [hm] at hb
    omega

/-- C29: for every byte sequence `b`, `len(b) <= len(Encode(b)) <= 2 * len(b)`; so the
`String()` of a name, which stores 1 to 127 bytes when a constructor returned it, has
between 1 and 254 characters. -/
theorem text_length_bounds (b : List Byte) :
    b.length ≤ (Encode b).length ∧ (Encode b).length ≤ 2 * b.length ∧
    (∀ n : blob.Name,
      ((∃ hash t, blob.NameFromHashAndType hash t = .ok n) ∨
        (∃ x, blob.NameFromBytes x = .ok n) ∨ (∃ s, blob.NameFromString s = .ok n)) →
      1 ≤ n.String.length ∧ n.String.length ≤ 254) := by
  refine ⟨(Encode_length_bounds b).1, (Encode_length_bounds b).2, ?_⟩
  intro n hn
  have fromBytes : ∀ x : List Byte, blob.NameFromBytes x = .ok n →
      1 ≤ n.bn.length ∧ n.bn.length ≤ 127 := by
    intro x hx
    by_cases hc : x.length = 0 ∨ 127 < x.length
    · rw [blob.NameFromBytes_error x hc] at hx; cases hx
    · rw [blob.NameFromBytes_ok x (by omega) (by omega)] at hx
      cases hx
      exact ⟨by simp only; omega, by simp only; omega⟩
  have hlen : 1 ≤ n.bn.length ∧ n.bn.length ≤ 127 := by
    rcases hn with ⟨hash, t, hn⟩ | ⟨x, hx⟩ | ⟨s, hs⟩
    · by_cases hc : hash.length = 0 ∨ hash.length > 0x7E
      · unfold blob.NameFromHashAndType at hn
        rw [if_pos hc] at hn; cases hn
      · rw [blob.NameFromHashAndType_ok hash t (by omega) (by omega)] at hn
        cases hn
        simp only [List.length_cons]
        omega
    · exact fromBytes x hx
    · unfold blob.NameFromString at hs
      cases hd : Decode s with
      | error e => rw [hd] at hs; cases hs
      | panic f => rw [hd] at hs; cases hs
      | ok d => rw [hd] at hs; exact fromBytes d hs
  have hb := Encode_length_bounds n.bn
  unfold blob.Name.String
  omega

end base58

/-! ## Names in memory: what is copied and what is shared -/

namespace Go

/-- A fresh array holds the data it was allocated with. -/
theorem Heap.read_alloc (m : Heap) (data : List Byte) :
    (m.alloc data).1.read (m.alloc data).2 = data := by
  simp [Heap.alloc, Heap.read, List.getD_eq_getElem?_getD]

/-- Allocation leaves the slices over older arrays as they were. -/
theorem Heap.read_alloc_old (m : Heap) (data : List Byte) (s : Slice) (h : s.arr < m.length) :
    (m.alloc data).1.read s = m.read s := by
  simp [Heap.alloc, Heap.read, List.getD_eq_getElem?_getD, List.getElem?_append_left h]

/-- An assignment through a slice leaves the slices over other arrays as they were. -/
theorem Heap.read_write_other (m m2 : Heap) (s t : Slice) (i : Nat) (v : Byte)
    (hw : m.write s i v = some m2) (hne : t.arr ≠ s.arr) : m2.read t = m.read t := by
  unfold Heap.write at hw
  split at hw
  · cases hw
    simp only [Heap.read, List.getD_eq_getElem?_getD]
    rw [List.getElem?_set_ne (Ne.symm hne)]
  · cases hw

end Go

namespace blob

open Go

/-- The constructors copy on entry and `Bytes` copies on exit: an assignment through the
slice given to `NameFromBytes` or to `NameFromHashAndType`, or through the slice that
`Bytes` returned, leaves the bytes of the name as they were. -/
theorem copies_are_isolated (m : Heap) (src : Slice) (hsrc : src.arr < m.length) :
    (∀ m1 nm m2 i v, NameFromBytesM m src = (m1, .ok nm) → m1.write src i v = some m2 →
      m1.read nm.bn = m.read src ∧ m2.read nm.bn = m.read src) ∧
    (∀ t m1 nm m2 i v, NameFromHashAndTypeM m src t = (m1, .ok nm) →
      m1.write src i v = some m2 → m2.read nm.bn = m1.read nm.bn) ∧
    (∀ m2 i v, (NameRef.Bytes m { bn := src }).1.write (NameRef.Bytes m { bn := src }).2 i v
        = some m2 →
      (NameRef.Bytes m { bn := src }).1.read (NameRef.Bytes m { bn := src }).2 = m.read src ∧
      m2.read src = m.read src) := by
  refine ⟨?_, ?_, ?_⟩
  · intro m1 nm m2 i v hn hw
    unfold NameFromBytesM at hn
    split at hn
    · cases hn
    · cases hn
      have hr := Heap.read_alloc m (m.read src)
      refine ⟨hr, ?_⟩
      rw [Heap.read_write_other _ _ _ _ _ _ hw (by simp only [Heap.alloc]; omega), hr]
  · intro t m1 nm m2 i v hn hw
    unfold NameFromHashAndTypeM at hn
    split at hn
    · cases hn
    · cases hn
      exact Heap.read_write_other _ _ _ _ _ _ hw (by simp only [Heap.alloc]; omega)
  · intro m2 i v hw
    refine ⟨Heap.read_alloc m (m.read src), ?_⟩
    rw [Heap.read_write_other _ _ _ _ _ _ hw (by simp only [NameRef.Bytes, Heap.alloc]; omega)]
    exact Heap.read_alloc_old m _ src hsrc

/-- The names in memory hold the bytes of the names of the model without memory. -/
theorem NameFromBytesM_refines (m : Heap) (src : Slice)
    (hvalid : src.off + src.len ≤ (m.getD src.arr []).length) :
    (∀ m1 nm, NameFromBytesM m src = (m1, .ok nm) →
      NameFromBytes (m.read src) = .ok { bn := m1.read nm.bn }) ∧
    (∀ m1 e, NameFromBytesM m src = (m1, .error e) → NameFromBytes (m.read src) = .error e) := by
  have hlen : (m.read src).length = src.len := by
    simp only [Heap.read, List.length_take, List.length_drop]
    omega
  refine ⟨?_, ?_⟩
  · intro m1 nm hn
    unfold NameFromBytesM at hn
    split at hn
    · cases hn
    · rename_i hc
      cases hn
      rw [Heap.read_alloc]
      exact NameFromBytes_ok _ (by omega) (by omega)
  · intro m1 e hn
    unfold NameFromBytesM at hn
    split at hn
    · rename_i hc
      cases hn
      exact NameFromBytes_error _ (by omega)
    · cases hn

/-- C21: not every accessor copies on exit. `Hash()` returns the slice `b.bn[1:]` over
the backing array of the name itself: after `n := NameFromBytes([7, 1, 2])`,
`h := n.Hash()` and `h[0] = 9`, the name reports `Bytes()` as `[7, 9, 2]` instead of
`[7, 1, 2]`, its `Type()` is 12 instead of 4, and its `String()` and `Hash()` have
changed too. -/
theorem Hash_shares_storage :
    ∃ m2 nm hs m3,
      NameFromBytesM (Heap.alloc [] [7, 1, 2]).1 (Heap.alloc [] [7, 1, 2]).2 = (m2, .ok nm) ∧
      nm.Hash = .ok hs ∧ hs.arr = nm.bn.arr ∧ m2.read hs = [1, 2] ∧
      m2.write hs 0 9 = some m3 ∧
      (nm.Bytes m2).1.read (nm.Bytes m2).2 = [7, 1, 2] ∧
      (nm.Bytes m3).1.read (nm.Bytes m3).2 = [7, 9, 2] ∧
      nm.Type m2 = { t := 4 } ∧ nm.Type m3 = { t := 12 } ∧
      nm.String m2 ≠ nm.String m3 ∧
      m3.read hs = [9, 2] :=
  ⟨_, _, _, _, rfl, rfl, rfl, by decide, rfl, by decide, by decide, by decide, by decide,
    by decide!, by decide⟩

end blob
